import Mathlib

/-!
A verification development for the deep-clone engine of `src/ts/Objects.ts`
(`clone`, its factory table `factoriesByTag`, and the type-classification
helpers it uses from `src/ts/tc.ts`).

The JavaScript value graph is embedded shallowly: a heap maps numeric
addresses to objects, a JS value is a primitive or a reference, and the
recursive closure `main` inside `clone` becomes a fuel-indexed state-passing
interpreter.  Every error this engine can raise in JavaScript is a
`TypeError` (the two `new TypeError(...)` throws of the engine itself, the
`tc.expectNonPrimitive` expectation failure, and the host `TypeError`s from
`Reflect.getPrototypeOf` on a non-object and from `WeakSet.prototype.add` on
a non-object), so the single error type `JSError` below stands for a thrown
`TypeError`, carrying the message and the optional attached `path` property.
-/

namespace Snowdash

/-- JavaScript primitive values.  `nullV` is kept separate because
`typeof null === "object"`, which matters for `tc.isPrimitive`.  Numbers are
modelled as integers (the engine never computes with them, it only carries
them around) and symbols as identifiers. -/
inductive Prim where
  | undef
  | nullV
  | bool (b : Bool)
  | num (n : Int)
  | str (s : String)
  | sym (id : Nat)
  | bigint (n : Int)
deriving DecidableEq, Repr

/-- A JavaScript value: a primitive, or a reference to a heap object. -/
inductive JSValue where
  | prim (p : Prim)
  | ref (a : Nat)
deriving DecidableEq, Repr

/-- A property key: a string or a symbol. -/
inductive PropKey where
  | str (s : String)
  | sym (id : Nat)
deriving DecidableEq, Repr

/-- A property descriptor: a data descriptor (has a `value` slot) or an
accessor descriptor (getter/setter function addresses). -/
inductive Descriptor where
  | data (value : JSValue) (writable enumerable configurable : Bool)
  | accessor (get set : Option Nat) (enumerable configurable : Bool)
deriving DecidableEq, Repr

/-- Internal slots of built-in object classes, covering the object kinds the
clone engine's factory table distinguishes (typed arrays are outside this
model's universe).  The class also determines the `Object.prototype.toString`
/ `Symbol.toStringTag` tag computed by `getTag`. -/
inductive Internal where
  | ordinary
  | array
  | booleanData (b : Bool)
  | numberData (n : Int)
  | dateValue (t : Int)
  | regexp (source flags : String)
  | mapData (entries : List (JSValue × JSValue))
  | setData (elems : List JSValue)
  | errorData
  | weakMapData
  | weakSetData
deriving DecidableEq, Repr

/-- A heap object.  `props` is the list of own properties in
`Reflect.ownKeys` enumeration order.  `callable` is true exactly for
function objects (`typeof` is `"function"`). -/
structure JSObject where
  callable : Bool
  proto : JSValue
  props : List (PropKey × Descriptor)
  internal : Internal
  extensible : Bool
deriving DecidableEq, Repr

/-- A heap: an association list of allocated objects plus the next fresh
address.  Updating shadows by prepending. -/
structure Heap where
  objs : List (Nat × JSObject)
  next : Nat
deriving DecidableEq, Repr

/-- First-match association lookup. -/
def alookup {α : Type} : List (Nat × α) → Nat → Option α
  | [], _ => none
  | (k, v) :: t, a => if k = a then some v else alookup t a

def Heap.lookup (h : Heap) (a : Nat) : Option JSObject :=
  alookup h.objs a

/-- Overwrite the object stored at address `a`. -/
def Heap.update (h : Heap) (a : Nat) (o : JSObject) : Heap :=
  ⟨(a, o) :: h.objs, h.next⟩

/-- Allocate a new object at the next fresh address. -/
def Heap.alloc (h : Heap) (o : JSObject) : Nat × Heap :=
  (h.next, ⟨(h.next, o) :: h.objs, h.next + 1⟩)

/-- Own-property lookup (`Reflect.getOwnPropertyDescriptor`). -/
def getOwnProp : List (PropKey × Descriptor) → PropKey → Option Descriptor
  | [], _ => none
  | (k, d) :: t, key => if k = key then some d else getOwnProp t key

/-- Replace the descriptor at `key` in place, or append it
(`Reflect.defineProperty` creates missing keys at the end of the own-key
order). -/
def setOwnProp : List (PropKey × Descriptor) → PropKey → Descriptor →
    List (PropKey × Descriptor)
  | [], key, d => [(key, d)]
  | (k, d0) :: t, key, d =>
    if k = key then (key, d) :: t else (k, d0) :: setOwnProp t key d

/-- `typeof v === "function"`. -/
def isCallableV (h : Heap) (v : JSValue) : Bool :=
  match v with
  | .ref a =>
    match h.lookup a with
    | some o => o.callable
    | none => false
  | .prim _ => false

/-- `tc.isPrimitive` from `src/ts/tc.ts`: based on `typeof`, so it returns
`false` for `null` (whose `typeof` is `"object"`) as well as for every
object and function. -/
def tcIsPrimitive (v : JSValue) : Bool :=
  match v with
  | .ref _ => false
  | .prim .nullV => false
  | .prim _ => true

/-- `tc.isMap`: brand check via `Map.prototype.has.call(arg, undefined)`,
which succeeds exactly on objects with a `[[MapData]]` internal slot. -/
def tcIsMap (h : Heap) (v : JSValue) : Bool :=
  match v with
  | .ref a =>
    match h.lookup a with
    | some o =>
      match o.internal with
      | .mapData _ => true
      | _ => false
    | none => false
  | .prim _ => false

/-- `tc.isSet`: brand check via `Set.prototype.has.call(arg, 0)`. -/
def tcIsSet (h : Heap) (v : JSValue) : Bool :=
  match v with
  | .ref a =>
    match h.lookup a with
    | some o =>
      match o.internal with
      | .setData _ => true
      | _ => false
    | none => false
  | .prim _ => false

/-- `Objects.getTag`: `Symbol.toStringTag` when present (the built-in
classes `Map`, `Set`, `WeakMap`, `WeakSet` define it) and otherwise the
`Object.prototype.toString` class tag.  In this model the tag is determined
by the object's class data. -/
def getTag (o : JSObject) : String :=
  if o.callable then "Function"
  else
    match o.internal with
    | .ordinary => "Object"
    | .array => "Array"
    | .booleanData _ => "Boolean"
    | .numberData _ => "Number"
    | .dateValue _ => "Date"
    | .regexp _ _ => "RegExp"
    | .mapData _ => "Map"
    | .setData _ => "Set"
    | .errorData => "Error"
    | .weakMapData => "WeakMap"
    | .weakSetData => "WeakSet"

/-- `ToBoolean`, as applied by the `Boolean` factory `new Boolean(x)`.
Every object reference converts to `true`. -/
def jsToBoolean (v : JSValue) : Bool :=
  match v with
  | .ref _ => true
  | .prim .undef => false
  | .prim .nullV => false
  | .prim (.bool b) => b
  | .prim (.num n) => n ≠ 0
  | .prim (.str s) => s ≠ ""
  | .prim (.sym _) => true
  | .prim (.bigint n) => n ≠ 0

/-- The numeric own `length` read by the `Array` factory `new Array(x.length)`
(every real array has an own numeric `length`). -/
def arrayLengthOf (o : JSObject) : Int :=
  match getOwnProp o.props (.str "length") with
  | some (.data (.prim (.num n)) _ _ _) => n
  | _ => 0

/-- The `message` string read by the `Error` factory `new Error(x.message)`
(ordinary errors carry their message as an own string property). -/
def errorMessageOf (o : JSObject) : Option String :=
  match getOwnProp o.props (.str "message") with
  | some (.data (.prim (.str s)) _ _ _) => some s
  | _ => none

/-- `factoriesByTag` from `src/ts/Objects.ts`: per-tag construction of the
clone shell.  Returns `some shell` when a factory exists and produces a new
object, `none` for unrecognized tags (the engine then uses
`Object.create(proto)`).

The factory's constructor leaves the shell with its built-in default
prototype; the engine immediately re-points it at the source's prototype
when they differ (`Reflect.setPrototypeOf(rv, proto)`), so the shell is
built here directly with `node`'s prototype — the net effect is identical.

Fidelity notes, keyed to the source table:
* `"Boolean": (x) => new Boolean(x)` — the constructor applies `ToBoolean`
  to `x`, and `x` here is always an object, hence `jsToBoolean nodeV`.
* `"Number": (x) => new Number(x)` — `ToNumber` of a boxed number unwraps
  its `[[NumberData]]` via `valueOf`.
* `"Date": (x) => new Date(x)` — copies `[[DateValue]]`.
* `"RegExp": (x) => new RegExp(x.source, x.flags)` — a freshly constructed
  regular expression carries the own property `lastIndex = 0`
  (writable, non-enumerable, non-configurable).
* `"Array": (x) => new Array(x.length)` — an empty array whose own
  `length` (writable, non-enumerable, non-configurable) equals the source's.
* `"Error": (x) => new Error(x.message)` — own `message`
  (writable, non-enumerable, configurable) when the argument is a string.
* `"Map" | "Set" | "WeakMap" | "WeakSet"` — new empty instances.
* The function-tag entries (`"Function"`, `"GeneratorFunction"`,
  `"AsyncFunction"`, `"AsyncGeneratorFunction"`) return the argument itself,
  but they are unreachable: `getTag` yields those tags only for callable
  objects, which `main` returns or rejects before consulting the table.
* The typed-array entries are outside this model's object universe, so
  their tags never arise. -/
def applyFactory (tag : String) (nodeV : JSValue) (node : JSObject) :
    Option JSObject :=
  if tag = "Array" then
    some ⟨false, node.proto,
      [(.str "length", .data (.prim (.num (arrayLengthOf node))) true false false)],
      .array, true⟩
  else if tag = "Boolean" then
    some ⟨false, node.proto, [], .booleanData (jsToBoolean nodeV), true⟩
  else if tag = "Number" then
    some ⟨false, node.proto, [],
      .numberData (match node.internal with | .numberData n => n | _ => 0), true⟩
  else if tag = "Date" then
    some ⟨false, node.proto, [],
      .dateValue (match node.internal with | .dateValue t => t | _ => 0), true⟩
  else if tag = "RegExp" then
    some ⟨false, node.proto,
      [(.str "lastIndex", .data (.prim (.num 0)) true false false)],
      (match node.internal with | .regexp s f => .regexp s f | _ => .regexp "" ""),
      true⟩
  else if tag = "Error" then
    some ⟨false, node.proto,
      (match errorMessageOf node with
       | some m => [(.str "message", .data (.prim (.str m)) true false true)]
       | none => []),
      .errorData, true⟩
  else if tag = "Map" then
    some ⟨false, node.proto, [], .mapData [], true⟩
  else if tag = "Set" then
    some ⟨false, node.proto, [], .setData [], true⟩
  else if tag = "WeakMap" then
    some ⟨false, node.proto, [], .weakMapData, true⟩
  else if tag = "WeakSet" then
    some ⟨false, node.proto, [], .weakSetData, true⟩
  else if tag = "Object" then
    some ⟨false, node.proto, [], .ordinary, true⟩
  else
    none

/-- The clone policy (`options` of `clone`), with the source's defaults. -/
structure ClonePolicy where
  allowAccessors : Bool := false
  allowFunctions : Bool := false
  ignoreAttributes : Bool := false
  ignoreExtensibility : Bool := false
  ignoreSymbols : Bool := false
deriving DecidableEq, Repr

def defaultPolicy : ClonePolicy := {}

/-- The per-invocation state of `clone`: the heap, the visited-node table
`clonesByVisitedObject` (source address to clone address, most recent
first), the visited-prototype set `setOfVisitedPrototypes` (only objects
can be members, hence addresses), and the property `path`. -/
structure CloneState where
  heap : Heap
  visited : List (Nat × Nat)
  protos : List Nat
  path : List JSValue
deriving DecidableEq, Repr

/-- A thrown `TypeError`: message, plus the attached `path` property for the
engine's own two errors (host `TypeError`s carry no path). -/
structure JSError where
  message : String
  path : Option (List JSValue)
deriving DecidableEq, Repr

/-- Result of a recursive `main` call.  JavaScript exceptions do not roll
back heap effects, so `err` carries the state at the throw.  `outOfFuel`
marks fuel exhaustion of the model's interpreter, never a behavior of the
source. -/
inductive CloneRes where
  | ok (v : JSValue) (s : CloneState)
  | err (e : JSError) (s : CloneState)
  | outOfFuel
deriving DecidableEq, Repr

/-- Result of a statement-level step (property loop, entry loop). -/
inductive StepRes where
  | ok (s : CloneState)
  | err (e : JSError) (s : CloneState)
  | outOfFuel
deriving DecidableEq, Repr

/-- `rv[key] = value` (strict mode, used when `ignoreAttributes` is set):
a missing key is created writable/enumerable/configurable; an existing
writable data property is updated in place; assignment to a non-writable
property throws.  (An accessor here would invoke a setter, which this model
does not execute; the engine only assigns onto freshly built shells, whose
factory-made properties are all data properties.) -/
def jsAssign (h : Heap) (a : Nat) (key : PropKey) (v : JSValue) :
    Except JSError Heap :=
  match h.lookup a with
  | none => .error ⟨"[model] dangling reference", none⟩
  | some o =>
    match getOwnProp o.props key with
    | none =>
      if o.extensible then
        .ok (h.update a { o with props := setOwnProp o.props key (.data v true true true) })
      else
        .error ⟨"Cannot add property, object is not extensible", none⟩
    | some (.data _ w e c) =>
      if w then
        .ok (h.update a { o with props := setOwnProp o.props key (.data v w e c) })
      else
        .error ⟨"Cannot assign to read only property", none⟩
    | some (.accessor _ _ _ _) =>
      .error ⟨"[model] setter invocation not modelled", none⟩

/-- `Reflect.defineProperty(rv, key, d)`.  On the engine's reachable paths
the target either lacks the key or holds a compatible factory-made data
property, so the definition always takes effect; the model replaces or
appends accordingly. -/
def defineProp (h : Heap) (a : Nat) (key : PropKey) (d : Descriptor) : Heap :=
  match h.lookup a with
  | none => h
  | some o => h.update a { o with props := setOwnProp o.props key d }

/-- `Map.prototype.set`: replace the value at an existing key (SameValueZero
identity; this model has no NaN) or append a new entry. -/
def mapSet : List (JSValue × JSValue) → JSValue → JSValue →
    List (JSValue × JSValue)
  | [], k, v => [(k, v)]
  | (k0, v0) :: t, k, v =>
    if k0 = k then (k0, v) :: t else (k0, v0) :: mapSet t k v

/-- `Reflect.preventExtensions(rv)`. -/
def markNonExtensible (h : Heap) (a : Nat) : Heap :=
  match h.lookup a with
  | none => h
  | some o => h.update a { o with extensible := false }

/-- The key list enumerated by the engine: `Reflect.ownKeys(node)` or, when
`ignoreSymbols` is set, `Object.getOwnPropertyNames(node)` (string keys
only, enumerable or not). -/
def enumKeys (pol : ClonePolicy) (o : JSObject) : List PropKey :=
  if pol.ignoreSymbols then
    (o.props.map Prod.fst).filter (fun k => match k with | .str _ => true | .sym _ => false)
  else
    o.props.map Prod.fst

/-- The property key pushed onto the `path` array, as a JS value. -/
def keyToValue (k : PropKey) : JSValue :=
  match k with
  | .str s => .prim (.str s)
  | .sym i => .prim (.sym i)

/-- The entry loop `for (const [key, value] of node.entries())`: push the
entry key on the path, evaluate `main(value)` (arguments are evaluated
before the call), then invoke `rv.set` — which updates a map clone, but is
`undefined` on a set clone, so the call itself throws a host `TypeError`
there ("rv.set is not a function"); finally pop the path.  `rec` is the
recursive `main` at the current fuel level. -/
def cloneEntriesAux (rec : CloneState → JSValue → CloneRes) :
    CloneState → Nat → List (JSValue × JSValue) → StepRes
  | s, _, [] => .ok s
  | s, rvAddr, (k, v) :: rest =>
    let sP : CloneState := { s with path := s.path ++ [k] }
    match rec sP v with
    | .err e s' => .err e s'
    | .outOfFuel => .outOfFuel
    | .ok v' s' =>
      match s'.heap.lookup rvAddr with
      | none => .err ⟨"[model] dangling reference", none⟩ s'
      | some rvObj =>
        match rvObj.internal with
        | .mapData es =>
          let h2 := s'.heap.update rvAddr { rvObj with internal := .mapData (mapSet es k v') }
          let sQ : CloneState := ⟨h2, s'.visited, s'.protos, s'.path.dropLast⟩
          cloneEntriesAux rec sQ rvAddr rest
        | _ => .err ⟨"rv.set is not a function", none⟩ s'

/-- The `if (tc.isMap(node) || tc.isSet(node))` statement that closes each
loop iteration: when the node is a map or set, iterate its entries
(`Map.prototype.entries` yields key/value pairs; `Set.prototype.entries`
yields each element paired with itself) and run `rv.set(key, main(value))`. -/
def entryStepAux (rec : CloneState → JSValue → CloneRes) (s : CloneState)
    (nodeAddr rvAddr : Nat) : StepRes :=
  if tcIsMap s.heap (.ref nodeAddr) || tcIsSet s.heap (.ref nodeAddr) then
    match s.heap.lookup nodeAddr with
    | none => .ok s
    | some o =>
      match o.internal with
      | .mapData entries => cloneEntriesAux rec s rvAddr entries
      | .setData elems => cloneEntriesAux rec s rvAddr (elems.map (fun v => (v, v)))
      | _ => .ok s
  else
    .ok s

/-- The own-property loop of `main`.  Per key: push it on the path, fetch
the descriptor (skipping a vanished one), clone a data value recursively and
install it (`rv[key] = value` or `Reflect.defineProperty` with the original
attributes), or copy/reject an accessor descriptor; then — nested inside
this loop exactly as in the source — the Map/Set entry loop; finally pop
the path.  `rec` is the recursive `main` at the current fuel level. -/
def clonePropsAux (pol : ClonePolicy) (rec : CloneState → JSValue → CloneRes) :
    CloneState → Nat → Nat → List PropKey → StepRes
  | s, _, _, [] => .ok s
  | s, nodeAddr, rvAddr, key :: rest =>
    let sP : CloneState := { s with path := s.path ++ [keyToValue key] }
    match sP.heap.lookup nodeAddr with
    | none => clonePropsAux pol rec sP nodeAddr rvAddr rest
    | some nodeObj =>
      match getOwnProp nodeObj.props key with
      | none =>
        -- `if (typeof descriptor === "undefined") continue;`
        -- (`continue` skips `path.length--`, mirrored here)
        clonePropsAux pol rec sP nodeAddr rvAddr rest
      | some (.data v w e c) =>
        match rec sP v with
        | .err e' s' => .err e' s'
        | .outOfFuel => .outOfFuel
        | .ok v' s' =>
          let installed : Except JSError Heap :=
            if pol.ignoreAttributes then jsAssign s'.heap rvAddr key v'
            else .ok (defineProp s'.heap rvAddr key (.data v' w e c))
          match installed with
          | .error e' => .err e' s'
          | .ok h2 =>
            let s2 : CloneState := { s' with heap := h2 }
            match entryStepAux rec s2 nodeAddr rvAddr with
            | .err e' s3 => .err e' s3
            | .outOfFuel => .outOfFuel
            | .ok s3 =>
              let sQ : CloneState := { s3 with path := s3.path.dropLast }
              clonePropsAux pol rec sQ nodeAddr rvAddr rest
      | some (.accessor g st e c) =>
        if pol.allowAccessors then
          let h2 := defineProp sP.heap rvAddr key (.accessor g st e c)
          let s2 : CloneState := { sP with heap := h2 }
          match entryStepAux rec s2 nodeAddr rvAddr with
          | .err e' s3 => .err e' s3
          | .outOfFuel => .outOfFuel
          | .ok s3 =>
            let sQ : CloneState := { s3 with path := s3.path.dropLast }
            clonePropsAux pol rec sQ nodeAddr rvAddr rest
        else
          .err ⟨"Cannot clone property accessors.", some sP.path⟩ sP

/-- The recursive closure `main` of `clone` (src/ts/Objects.ts), fuel-indexed
(structural on the fuel, so that runs evaluate definitionally).  Statement
order follows the source: `typeof` function check; `clonesByVisitedObject`
hit; `setOfVisitedPrototypes` hit; `Reflect.getPrototypeOf(node)` (host
`TypeError` on a primitive); `setOfVisitedPrototypes.add(proto)` (host
`TypeError` on a `null` prototype, since a `WeakSet` cannot hold `null`);
factory construction, prototype re-pointing and registration; the
own-property loop; the extensibility step. -/
def mainClone (pol : ClonePolicy) : Nat → CloneState → JSValue → CloneRes
  | 0, _, _ => .outOfFuel
  | fuel + 1, s, node =>
    if isCallableV s.heap node then
      if pol.allowFunctions then .ok node s
      else .err ⟨"Cannot clone a function.", some s.path⟩ s
    else
      match node with
      | .prim _ =>
        -- `WeakMap.prototype.has` and `WeakSet.prototype.has` return false
        -- on primitives, then `Reflect.getPrototypeOf` throws.
        .err ⟨"Reflect.getPrototypeOf called on non-object", none⟩ s
      | .ref a =>
        match alookup s.visited a with
        | some c => .ok (.ref c) s
        | none =>
          if a ∈ s.protos then .ok node s
          else
            match s.heap.lookup a with
            | none => .err ⟨"[model] dangling reference", none⟩ s
            | some obj =>
              match obj.proto with
              | .prim _ => .err ⟨"Invalid value used in weak set", none⟩ s
              | .ref pa =>
                let s1 : CloneState := { s with protos := pa :: s.protos }
                let shell : JSObject :=
                  match applyFactory (getTag obj) (.ref a) obj with
                  | some o => o
                  | none => ⟨false, .ref pa, [], .ordinary, true⟩
                let alloc := s1.heap.alloc shell
                let rvAddr := alloc.fst
                let s2 : CloneState :=
                  { s1 with heap := alloc.snd, visited := (a, rvAddr) :: s1.visited }
                match clonePropsAux pol (mainClone pol fuel) s2 a rvAddr (enumKeys pol obj) with
                | .err e s' => .err e s'
                | .outOfFuel => .outOfFuel
                | .ok s3 =>
                  let s4 : CloneState :=
                    if pol.ignoreExtensibility then s3
                    else
                      match s3.heap.lookup a with
                      | some o2 =>
                        if o2.extensible then s3
                        else ⟨markNonExtensible s3.heap rvAddr, s3.visited, s3.protos, s3.path⟩
                      | none => s3
                  .ok (.ref rvAddr) s4

/-- `Objects.clone(object, options)`: validate the root with
`tc.expectNonPrimitive` (whose failure message is
"expected a non-primitive value."), set up the fresh per-invocation tables,
and run `main`.  (`tc.expectNonPrimitive(options)` and the five
`tc.expectBoolean` checks are vacuous here because the policy is a typed
record of booleans.)  `fuel` bounds the recursion depth of the model's
interpreter only. -/
def clone (fuel : Nat) (h : Heap) (root : JSValue) (pol : ClonePolicy) :
    CloneRes :=
  if tcIsPrimitive root then
    .err ⟨"expected a non-primitive value.", none⟩ ⟨h, [], [], []⟩
  else
    mainClone pol fuel ⟨h, [], [], []⟩ root

/-! ## Observations on heaps and results -/

/-- The value of the own data property named `k` of the object at `a`. -/
def ownDataValue (h : Heap) (a : Nat) (k : String) : Option JSValue :=
  match h.lookup a with
  | some o =>
    match getOwnProp o.props (.str k) with
    | some (.data v _ _ _) => some v
    | _ => none
  | none => none

/-- The internal class data of the object at `a`. -/
def internalOf (h : Heap) (a : Nat) : Option Internal :=
  (h.lookup a).map JSObject.internal

/-- `Map.prototype.get` on the map object at `a`. -/
def jsMapGet (h : Heap) (a : Nat) (k : JSValue) : Option JSValue :=
  match h.lookup a with
  | some o =>
    match o.internal with
    | .mapData es => (es.find? (fun kv => kv.fst = k)).map Prod.snd
    | _ => none
  | none => none

/-- The final state of a `clone` run, for a normal return and for a throw
alike (a JavaScript exception does not roll back heap effects). -/
def CloneRes.finalState : CloneRes → Option CloneState
  | .ok _ s => some s
  | .err _ s => some s
  | .outOfFuel => none

/-! ## Concrete value graphs used by the claims

Address 0 always holds the `Object.prototype` stand-in: an ordinary object
with a `null` prototype and no own properties (its real own properties are
never read by the engine: prototypes are only registered in the visited
prototype set, never traversed). -/

/-- The `Object.prototype` stand-in. -/
def objProto : JSObject := ⟨false, .prim .nullV, [], .ordinary, true⟩

/-- `shared = {}; root = {x: shared, y: shared}` — `shared` at 1, `root`
at 2. -/
def hShared : Heap :=
  ⟨[(0, objProto),
    (1, ⟨false, .ref 0, [], .ordinary, true⟩),
    (2, ⟨false, .ref 0,
      [(.str "x", .data (.ref 1) true true true),
       (.str "y", .data (.ref 1) true true true)], .ordinary, true⟩)], 3⟩

/-- `a = {}; a.self = a` — `a` at 1. -/
def hCycle : Heap :=
  ⟨[(0, objProto),
    (1, ⟨false, .ref 0, [(.str "self", .data (.ref 1) true true true)],
      .ordinary, true⟩)], 2⟩

/-- `new Map([["a", 1]])` at 1 (a map has no own properties; its entries
live in `[[MapData]]`). -/
def hMapA1 : Heap :=
  ⟨[(0, objProto),
    (1, ⟨false, .ref 0, [], .mapData [(.prim (.str "a"), .prim (.num 1))],
      true⟩)], 2⟩

/-- A function `f` (with the own non-writable `length = 0` every real
function has) at 1. -/
def hFnRoot : Heap :=
  ⟨[(0, objProto),
    (1, ⟨true, .ref 0, [(.str "length", .data (.prim (.num 0)) false false true)],
      .ordinary, true⟩)], 2⟩

/-- `{a: 1}` at 1. -/
def hA1 : Heap :=
  ⟨[(0, objProto),
    (1, ⟨false, .ref 0, [(.str "a", .data (.prim (.num 1)) true true true)],
      .ordinary, true⟩)], 2⟩

/-- `{[s]: 1}` at 1 — a single symbol-keyed primitive-valued property. -/
def hSym1 : Heap :=
  ⟨[(0, objProto),
    (1, ⟨false, .ref 0, [(.sym 0, .data (.prim (.num 1)) true true true)],
      .ordinary, true⟩)], 2⟩

/-- `{f: () => {}}` — the function at 2, the root at 1. -/
def hFProp : Heap :=
  ⟨[(0, objProto),
    (2, ⟨true, .ref 0, [], .ordinary, true⟩),
    (1, ⟨false, .ref 0, [(.str "f", .data (.ref 2) true true true)],
      .ordinary, true⟩)], 3⟩

/-- `{a: 1, f: () => {}}` — the function at 2, the root at 1 (own-key order
puts `"a"` before `"f"`). -/
def hAF : Heap :=
  ⟨[(0, objProto),
    (2, ⟨true, .ref 0, [], .ordinary, true⟩),
    (1, ⟨false, .ref 0,
      [(.str "a", .data (.prim (.num 1)) true true true),
       (.str "f", .data (.ref 2) true true true)], .ordinary, true⟩)], 3⟩

/-- `new Date(1000)` at 1 (a fresh date has no own properties). -/
def hDate1000 : Heap :=
  ⟨[(0, objProto), (1, ⟨false, .ref 0, [], .dateValue 1000, true⟩)], 2⟩

/-- `/ab+c/gi` at 1, with the own `lastIndex = 0` property
(writable, non-enumerable, non-configurable) every real regular expression
instance has. -/
def hRegexp : Heap :=
  ⟨[(0, objProto),
    (1, ⟨false, .ref 0,
      [(.str "lastIndex", .data (.prim (.num 0)) true false false)],
      .regexp "ab+c" "gi", true⟩)], 2⟩

/-- `new Boolean(false)` at 1. -/
def hBoxedFalse : Heap :=
  ⟨[(0, objProto), (1, ⟨false, .ref 0, [], .booleanData false, true⟩)], 2⟩

/-! ## Frame infrastructure: the engine never mutates below a watermark -/

/-- `heapPreserves n h h'`: going from `h` to `h'`, the allocation counter
did not shrink and every address below the watermark `n` still resolves to
exactly the same object. -/
def heapPreserves (n : Nat) (h h' : Heap) : Prop :=
  h.next ≤ h'.next ∧ ∀ b, b < n → h'.lookup b = h.lookup b

theorem heapPreserves_refl (n : Nat) (h : Heap) : heapPreserves n h h :=
  ⟨Nat.le_refl _, fun _ _ => rfl⟩

theorem heapPreserves_trans {n : Nat} {h1 h2 h3 : Heap}
    (p1 : heapPreserves n h1 h2) (p2 : heapPreserves n h2 h3) :
    heapPreserves n h1 h3 :=
  ⟨Nat.le_trans p1.1 p2.1, fun b hb => (p2.2 b hb).trans (p1.2 b hb)⟩

theorem lookup_update_ne (h : Heap) (a : Nat) (o : JSObject) (b : Nat)
    (hne : a ≠ b) : (h.update a o).lookup b = h.lookup b := by
  simp only [Heap.update, Heap.lookup, alookup]
  simp [hne]

theorem heapPreserves_update {n : Nat} (h : Heap) (a : Nat) (o : JSObject)
    (ha : n ≤ a) : heapPreserves n h (h.update a o) :=
  ⟨Nat.le_refl _, fun b hb =>
    lookup_update_ne h a o b (by exact fun e => absurd (e ▸ ha) (Nat.not_le.mpr hb))⟩

theorem heapPreserves_alloc {n : Nat} (h : Heap) (o : JSObject)
    (hn : n ≤ h.next) : heapPreserves n h (h.alloc o).snd := by
  refine ⟨Nat.le_succ _, fun b hb => ?_⟩
  have hne : h.next ≠ b := fun e => absurd (e ▸ hn) (Nat.not_le.mpr hb)
  simp only [Heap.alloc, Heap.lookup, alookup]
  simp [hne]

theorem heapPreserves_markNonExtensible {n : Nat} (h : Heap) (a : Nat)
    (ha : n ≤ a) : heapPreserves n h (markNonExtensible h a) := by
  unfold markNonExtensible
  cases h.lookup a with
  | none => exact heapPreserves_refl n h
  | some o => exact heapPreserves_update h a _ ha

theorem heapPreserves_defineProp {n : Nat} (h : Heap) (a : Nat)
    (key : PropKey) (d : Descriptor) (ha : n ≤ a) :
    heapPreserves n h (defineProp h a key d) := by
  unfold defineProp
  cases h.lookup a with
  | none => exact heapPreserves_refl n h
  | some o => exact heapPreserves_update h a _ ha

theorem heapPreserves_jsAssign {n : Nat} {h h' : Heap} {a : Nat}
    {key : PropKey} {v : JSValue} (ha : n ≤ a)
    (hres : jsAssign h a key v = .ok h') : heapPreserves n h h' := by
  unfold jsAssign at hres
  split at hres
  · simp at hres
  · split at hres
    · split at hres
      · cases hres
        exact heapPreserves_update h a _ ha
      · simp at hres
    · split at hres
      · cases hres
        exact heapPreserves_update h a _ ha
      · simp at hres
    · simp at hres

/-- Final state of a loop step, for returns and throws alike. -/
def StepRes.finalState : StepRes → Option CloneState
  | .ok s => some s
  | .err _ s => some s
  | .outOfFuel => none

/-- `rec` (a `main` stage) preserves all lookups below `n` whenever it
returns or throws from a state whose allocation counter is at least `n`. -/
def RecFrame (n : Nat) (rec : CloneState → JSValue → CloneRes) : Prop :=
  ∀ s node s', n ≤ s.heap.next → (rec s node).finalState = some s' →
    heapPreserves n s.heap s'.heap

theorem cloneEntriesAux_frame {n : Nat} {rec : CloneState → JSValue → CloneRes}
    (hrec : RecFrame n rec) (entries : List (JSValue × JSValue)) :
    ∀ (s : CloneState) (rvAddr : Nat) (s' : CloneState),
      n ≤ s.heap.next → n ≤ rvAddr →
      (cloneEntriesAux rec s rvAddr entries).finalState = some s' →
      heapPreserves n s.heap s'.heap := by
  induction entries with
  | nil =>
    intro s rvAddr s' hn _ hres
    simp only [cloneEntriesAux, StepRes.finalState] at hres
    cases hres
    exact heapPreserves_refl n s.heap
  | cons kv rest ih =>
    intro s rvAddr s' hn hrv hres
    obtain ⟨k, v⟩ := kv
    simp only [cloneEntriesAux] at hres
    cases hr : rec { s with path := s.path ++ [k] } v with
    | outOfFuel => simp only [hr, StepRes.finalState] at hres; cases hres
    | err e s2 =>
      simp only [hr, StepRes.finalState] at hres
      cases hres
      exact hrec { s with path := s.path ++ [k] } v s' hn
        (by simp only [hr, CloneRes.finalState])
    | ok v' s2 =>
      simp only [hr] at hres
      have h1 : heapPreserves n s.heap s2.heap :=
        hrec { s with path := s.path ++ [k] } v s2 hn
          (by simp only [hr, CloneRes.finalState])
      cases hl : s2.heap.lookup rvAddr with
      | none =>
        simp only [hl, StepRes.finalState] at hres
        cases hres
        exact h1
      | some rvObj =>
        simp only [hl] at hres
        cases hint : rvObj.internal with
        | mapData es =>
          simp only [hint] at hres
          have hn2 : n ≤ s2.heap.next := Nat.le_trans hn h1.1
          have h2 : heapPreserves n s2.heap (s2.heap.update rvAddr
              { rvObj with internal := .mapData (mapSet es k v') }) :=
            heapPreserves_update _ _ _ hrv
          have h3 := ih ⟨s2.heap.update rvAddr
              { rvObj with internal := .mapData (mapSet es k v') },
              s2.visited, s2.protos, s2.path.dropLast⟩ rvAddr s' hn2 hrv hres
          exact heapPreserves_trans h1 (heapPreserves_trans h2 h3)
        | ordinary => simp only [hint, StepRes.finalState] at hres; cases hres; exact h1
        | array => simp only [hint, StepRes.finalState] at hres; cases hres; exact h1
        | booleanData b => simp only [hint, StepRes.finalState] at hres; cases hres; exact h1
        | numberData m => simp only [hint, StepRes.finalState] at hres; cases hres; exact h1
        | dateValue t => simp only [hint, StepRes.finalState] at hres; cases hres; exact h1
        | regexp s0 f0 => simp only [hint, StepRes.finalState] at hres; cases hres; exact h1
        | setData es => simp only [hint, StepRes.finalState] at hres; cases hres; exact h1
        | errorData => simp only [hint, StepRes.finalState] at hres; cases hres; exact h1
        | weakMapData => simp only [hint, StepRes.finalState] at hres; cases hres; exact h1
        | weakSetData => simp only [hint, StepRes.finalState] at hres; cases hres; exact h1

theorem entryStepAux_frame {n : Nat} {rec : CloneState → JSValue → CloneRes}
    (hrec : RecFrame n rec) (s : CloneState) (nodeAddr rvAddr : Nat)
    (s' : CloneState) (hn : n ≤ s.heap.next) (hrv : n ≤ rvAddr)
    (hres : (entryStepAux rec s nodeAddr rvAddr).finalState = some s') :
    heapPreserves n s.heap s'.heap := by
  unfold entryStepAux at hres
  split at hres
  · split at hres
    · simp only [StepRes.finalState] at hres; cases hres; exact heapPreserves_refl n s.heap
    · split at hres
      · exact cloneEntriesAux_frame hrec _ _ _ _ hn hrv hres
      · exact cloneEntriesAux_frame hrec _ _ _ _ hn hrv hres
      · simp only [StepRes.finalState] at hres; cases hres; exact heapPreserves_refl n s.heap
  · simp only [StepRes.finalState] at hres; cases hres; exact heapPreserves_refl n s.heap

theorem clonePropsAux_frame {n : Nat} (pol : ClonePolicy)
    {rec : CloneState → JSValue → CloneRes} (hrec : RecFrame n rec)
    (keys : List PropKey) :
    ∀ (s : CloneState) (nodeAddr rvAddr : Nat) (s' : CloneState),
      n ≤ s.heap.next → n ≤ rvAddr →
      (clonePropsAux pol rec s nodeAddr rvAddr keys).finalState = some s' →
      heapPreserves n s.heap s'.heap := by
  induction keys with
  | nil =>
    intro s nodeAddr rvAddr s' hn _ hres
    simp only [clonePropsAux, StepRes.finalState] at hres
    cases hres
    exact heapPreserves_refl n s.heap
  | cons key rest ih =>
    intro s nodeAddr rvAddr s' hn hrv hres
    simp only [clonePropsAux] at hres
    cases hl : s.heap.lookup nodeAddr with
    | none =>
      simp only [hl] at hres
      exact ih ⟨s.heap, s.visited, s.protos, s.path ++ [keyToValue key]⟩
        nodeAddr rvAddr s' hn hrv hres
    | some nodeObj =>
      simp only [hl] at hres
      cases hd : getOwnProp nodeObj.props key with
      | none =>
        simp only [hd] at hres
        exact ih ⟨s.heap, s.visited, s.protos, s.path ++ [keyToValue key]⟩
          nodeAddr rvAddr s' hn hrv hres
      | some d =>
        simp only [hd] at hres
        cases d with
        | data v w e c =>
          cases hr : rec ⟨s.heap, s.visited, s.protos, s.path ++ [keyToValue key]⟩ v with
          | outOfFuel => simp only [hr, StepRes.finalState] at hres; cases hres
          | err e' s2 =>
            simp only [hr, StepRes.finalState] at hres
            cases hres
            exact hrec ⟨s.heap, s.visited, s.protos, s.path ++ [keyToValue key]⟩
              v s' hn (by simp only [hr, CloneRes.finalState])
          | ok v' s2 =>
            simp only [hr] at hres
            have h1 : heapPreserves n s.heap s2.heap :=
              hrec ⟨s.heap, s.visited, s.protos, s.path ++ [keyToValue key]⟩
                v s2 hn (by simp only [hr, CloneRes.finalState])
            have hn2 : n ≤ s2.heap.next := Nat.le_trans hn h1.1
            cases hia : pol.ignoreAttributes with
            | true =>
              simp only [hia, if_true] at hres
              cases hj : jsAssign s2.heap rvAddr key v' with
              | error e2 =>
                simp only [hj, StepRes.finalState] at hres
                cases hres
                exact h1
              | ok h2 =>
                simp only [hj] at hres
                have h2p : heapPreserves n s2.heap h2 := heapPreserves_jsAssign hrv hj
                have hn3 : n ≤ h2.next := Nat.le_trans hn2 h2p.1
                cases hes : entryStepAux rec ⟨h2, s2.visited, s2.protos, s2.path⟩ nodeAddr rvAddr with
                | outOfFuel => simp only [hes, StepRes.finalState] at hres; cases hres
                | err e2 s3 =>
                  simp only [hes, StepRes.finalState] at hres
                  cases hres
                  have h3p := entryStepAux_frame hrec ⟨h2, s2.visited, s2.protos, s2.path⟩
                    nodeAddr rvAddr s' hn3 hrv (by simp only [hes, StepRes.finalState])
                  exact heapPreserves_trans h1 (heapPreserves_trans h2p h3p)
                | ok s3 =>
                  simp only [hes] at hres
                  have h3p := entryStepAux_frame hrec ⟨h2, s2.visited, s2.protos, s2.path⟩
                    nodeAddr rvAddr s3 hn3 hrv (by simp only [hes, StepRes.finalState])
                  have h4 := ih ⟨s3.heap, s3.visited, s3.protos, s3.path.dropLast⟩
                    nodeAddr rvAddr s' (Nat.le_trans hn3 h3p.1) hrv hres
                  exact heapPreserves_trans h1
                    (heapPreserves_trans h2p (heapPreserves_trans h3p h4))
            | false =>
              simp only [hia, Bool.false_eq_true, if_false] at hres
              have h2p : heapPreserves n s2.heap
                  (defineProp s2.heap rvAddr key (.data v' w e c)) :=
                heapPreserves_defineProp _ _ _ _ hrv
              have hn3 : n ≤ (defineProp s2.heap rvAddr key (.data v' w e c)).next :=
                Nat.le_trans hn2 h2p.1
              cases hes : entryStepAux rec ⟨defineProp s2.heap rvAddr key (.data v' w e c),
                  s2.visited, s2.protos, s2.path⟩ nodeAddr rvAddr with
              | outOfFuel => simp only [hes, StepRes.finalState] at hres; cases hres
              | err e2 s3 =>
                simp only [hes, StepRes.finalState] at hres
                cases hres
                have h3p := entryStepAux_frame hrec
                  ⟨defineProp s2.heap rvAddr key (.data v' w e c),
                    s2.visited, s2.protos, s2.path⟩
                  nodeAddr rvAddr s' hn3 hrv (by simp only [hes, StepRes.finalState])
                exact heapPreserves_trans h1 (heapPreserves_trans h2p h3p)
              | ok s3 =>
                simp only [hes] at hres
                have h3p := entryStepAux_frame hrec
                  ⟨defineProp s2.heap rvAddr key (.data v' w e c),
                    s2.visited, s2.protos, s2.path⟩
                  nodeAddr rvAddr s3 hn3 hrv (by simp only [hes, StepRes.finalState])
                have h4 := ih ⟨s3.heap, s3.visited, s3.protos, s3.path.dropLast⟩
                  nodeAddr rvAddr s' (Nat.le_trans hn3 h3p.1) hrv hres
                exact heapPreserves_trans h1
                  (heapPreserves_trans h2p (heapPreserves_trans h3p h4))
        | accessor g st e c =>
          cases haa : pol.allowAccessors with
          | false =>
            simp only [haa, Bool.false_eq_true, if_false, StepRes.finalState] at hres
            cases hres
            exact heapPreserves_refl n s.heap
          | true =>
            simp only [haa, if_true] at hres
            have h2p : heapPreserves n s.heap
                (defineProp s.heap rvAddr key (.accessor g st e c)) :=
              heapPreserves_defineProp _ _ _ _ hrv
            have hn3 : n ≤ (defineProp s.heap rvAddr key (.accessor g st e c)).next :=
              Nat.le_trans hn h2p.1
            cases hes : entryStepAux rec ⟨defineProp s.heap rvAddr key (.accessor g st e c),
                s.visited, s.protos, s.path ++ [keyToValue key]⟩ nodeAddr rvAddr with
            | outOfFuel => simp only [hes, StepRes.finalState] at hres; cases hres
            | err e2 s3 =>
              simp only [hes, StepRes.finalState] at hres
              cases hres
              have h3p := entryStepAux_frame hrec
                ⟨defineProp s.heap rvAddr key (.accessor g st e c),
                  s.visited, s.protos, s.path ++ [keyToValue key]⟩
                nodeAddr rvAddr s' hn3 hrv (by simp only [hes, StepRes.finalState])
              exact heapPreserves_trans h2p h3p
            | ok s3 =>
              simp only [hes] at hres
              have h3p := entryStepAux_frame hrec
                ⟨defineProp s.heap rvAddr key (.accessor g st e c),
                  s.visited, s.protos, s.path ++ [keyToValue key]⟩
                nodeAddr rvAddr s3 hn3 hrv (by simp only [hes, StepRes.finalState])
              have h4 := ih ⟨s3.heap, s3.visited, s3.protos, s3.path.dropLast⟩
                nodeAddr rvAddr s' (Nat.le_trans hn3 h3p.1) hrv hres
              exact heapPreserves_trans h2p (heapPreserves_trans h3p h4)

theorem mainClone_frame (pol : ClonePolicy) (n : Nat) :
    ∀ fuel, RecFrame n (mainClone pol fuel) := by
  intro fuel
  induction fuel with
  | zero =>
    intro s node s' _ hres
    simp only [mainClone, CloneRes.finalState] at hres
    cases hres
  | succ fuel ih =>
    intro s node s' hn hres
    simp only [mainClone] at hres
    cases hcall : isCallableV s.heap node with
    | true =>
      simp only [hcall, if_true] at hres
      cases haf : pol.allowFunctions with
      | true =>
        simp only [haf, if_true, CloneRes.finalState] at hres
        cases hres
        exact heapPreserves_refl n s.heap
      | false =>
        simp only [haf, Bool.false_eq_true, if_false, CloneRes.finalState] at hres
        cases hres
        exact heapPreserves_refl n s.heap
    | false =>
      simp only [hcall, Bool.false_eq_true, if_false] at hres
      cases node with
      | prim p =>
        simp only [CloneRes.finalState] at hres
        cases hres
        exact heapPreserves_refl n s.heap
      | ref a =>
        cases hv : alookup s.visited a with
        | some c =>
          simp only [hv, CloneRes.finalState] at hres
          cases hres
          exact heapPreserves_refl n s.heap
        | none =>
          simp only [hv] at hres
          by_cases hmem : a ∈ s.protos
          · simp only [if_pos hmem, CloneRes.finalState] at hres
            cases hres
            exact heapPreserves_refl n s.heap
          · simp only [if_neg hmem] at hres
            cases hl : s.heap.lookup a with
            | none =>
              simp only [hl, CloneRes.finalState] at hres
              cases hres
              exact heapPreserves_refl n s.heap
            | some obj =>
              simp only [hl] at hres
              cases hp : obj.proto with
              | prim q =>
                simp only [hp, CloneRes.finalState] at hres
                cases hres
                exact heapPreserves_refl n s.heap
              | ref pa =>
                simp only [hp] at hres
                generalize hsh : (match applyFactory (getTag obj) (.ref a) obj with
                  | some o => o
                  | none => (⟨false, .ref pa, [], .ordinary, true⟩ : JSObject)) = shell at hres
                simp only [Heap.alloc] at hres
                have hA : heapPreserves n s.heap
                    ⟨(s.heap.next, shell) :: s.heap.objs, s.heap.next + 1⟩ :=
                  heapPreserves_alloc s.heap shell hn
                have hn2 : n ≤ ((⟨(s.heap.next, shell) :: s.heap.objs,
                    s.heap.next + 1⟩ : Heap)).next :=
                  Nat.le_trans hn hA.1
                have hrv : n ≤ s.heap.next := hn
                cases hloop : clonePropsAux pol (mainClone pol fuel)
                    ⟨⟨(s.heap.next, shell) :: s.heap.objs, s.heap.next + 1⟩,
                     (a, s.heap.next) :: s.visited, pa :: s.protos, s.path⟩
                    a s.heap.next (enumKeys pol obj) with
                | outOfFuel => simp only [hloop, CloneRes.finalState] at hres; cases hres
                | err e s2 =>
                  simp only [hloop, CloneRes.finalState] at hres
                  cases hres
                  have hLp := clonePropsAux_frame pol ih (enumKeys pol obj)
                    ⟨⟨(s.heap.next, shell) :: s.heap.objs, s.heap.next + 1⟩,
                     (a, s.heap.next) :: s.visited, pa :: s.protos, s.path⟩
                    a s.heap.next s' hn2 hrv (by simp only [hloop, StepRes.finalState])
                  exact heapPreserves_trans hA hLp
                | ok s3 =>
                  simp only [hloop] at hres
                  have hLp := clonePropsAux_frame pol ih (enumKeys pol obj)
                    ⟨⟨(s.heap.next, shell) :: s.heap.objs, s.heap.next + 1⟩,
                     (a, s.heap.next) :: s.visited, pa :: s.protos, s.path⟩
                    a s.heap.next s3 hn2 hrv (by simp only [hloop, StepRes.finalState])
                  have hbase : heapPreserves n s.heap s3.heap :=
                    heapPreserves_trans hA hLp
                  cases hie : pol.ignoreExtensibility with
                  | true =>
                    simp only [hie, if_true, CloneRes.finalState] at hres
                    cases hres
                    exact hbase
                  | false =>
                    simp only [hie, Bool.false_eq_true, if_false] at hres
                    cases hl2 : s3.heap.lookup a with
                    | none =>
                      simp only [hl2, CloneRes.finalState] at hres
                      cases hres
                      exact hbase
                    | some o2 =>
                      simp only [hl2] at hres
                      cases hext : o2.extensible with
                      | true =>
                        simp only [hext, if_true, CloneRes.finalState] at hres
                        cases hres
                        exact hbase
                      | false =>
                        simp only [hext, Bool.false_eq_true, if_false,
                          CloneRes.finalState] at hres
                        cases hres
                        exact heapPreserves_trans hbase
                          (heapPreserves_markNonExtensible _ _ hrv)

/-! ## A primitive-valued own property is never cloned successfully -/

/-- A `main` stage never returns normally on a primitive argument: the
primitive is not a function, misses both weak tables, and then
`Reflect.getPrototypeOf` throws. -/
theorem mainClone_prim_not_ok (pol : ClonePolicy) (fuel : Nat)
    (s : CloneState) (p : Prim) :
    ∀ v' s', mainClone pol fuel s (.prim p) ≠ .ok v' s' := by
  intro v' s'
  cases fuel with
  | zero => simp [mainClone]
  | succ fuel => simp [mainClone, isCallableV]

theorem getOwnProp_mem_keys {props : List (PropKey × Descriptor)}
    {k : PropKey} {d : Descriptor} (hd : getOwnProp props k = some d) :
    k ∈ props.map Prod.fst := by
  induction props with
  | nil => simp [getOwnProp] at hd
  | cons kd t ih =>
    obtain ⟨k0, d0⟩ := kd
    simp only [getOwnProp] at hd
    by_cases hk : k0 = k
    · subst hk
      simp
    · simp only [hk, if_false] at hd
      simp only [List.map_cons, List.mem_cons]
      exact Or.inr (ih hd)

/-- If some key in the remaining key list holds a data descriptor whose
value is primitive, the own-property loop cannot finish normally: reaching
that key makes the recursive `main` throw, and any earlier failure throws
too. -/
theorem clonePropsAux_prim_key_not_ok {n : Nat} (pol : ClonePolicy)
    {rec : CloneState → JSValue → CloneRes} (hfr : RecFrame n rec)
    (hpn : ∀ s p v' s', rec s (.prim p) ≠ .ok v' s') (keys : List PropKey) :
    ∀ (s : CloneState) (nodeAddr rvAddr : Nat) (obj : JSObject) (k : PropKey)
      (pr : Prim) (w e c : Bool),
      n ≤ s.heap.next → nodeAddr < n → n ≤ rvAddr →
      s.heap.lookup nodeAddr = some obj →
      getOwnProp obj.props k = some (.data (.prim pr) w e c) →
      k ∈ keys →
      ∀ s', clonePropsAux pol rec s nodeAddr rvAddr keys ≠ .ok s' := by
  induction keys with
  | nil =>
    intro s nodeAddr rvAddr obj k pr w e c _ _ _ _ _ hk
    cases hk
  | cons key rest ih =>
    intro s nodeAddr rvAddr obj k pr w e c hn hna hrv hl hprop hk s' hok
    simp only [clonePropsAux, hl] at hok
    cases hd0 : getOwnProp obj.props key with
    | none =>
      simp only [hd0] at hok
      have hkr : k ∈ rest := by
        cases List.mem_cons.mp hk with
        | inl heq =>
          subst heq
          rw [hd0] at hprop
          cases hprop
        | inr hr => exact hr
      exact ih ⟨s.heap, s.visited, s.protos, s.path ++ [keyToValue key]⟩
        nodeAddr rvAddr obj k pr w e c hn hna hrv hl hprop hkr s' hok
    | some d =>
      simp only [hd0] at hok
      cases d with
      | data v w0 e0 c0 =>
        simp only [] at hok
        cases hrc : rec ⟨s.heap, s.visited, s.protos, s.path ++ [keyToValue key]⟩ v with
        | outOfFuel => simp only [hrc] at hok; cases hok
        | err e' s2 => simp only [hrc] at hok; cases hok
        | ok v' s2 =>
          by_cases hkey : k = key
          · subst hkey
            rw [hd0] at hprop
            cases hprop
            exact hpn ⟨s.heap, s.visited, s.protos, s.path ++ [keyToValue k]⟩
              pr v' s2 hrc
          · have hkr : k ∈ rest := by
              cases List.mem_cons.mp hk with
              | inl heq => exact absurd heq hkey
              | inr hr => exact hr
            simp only [hrc] at hok
            have h1 : heapPreserves n s.heap s2.heap :=
              hfr ⟨s.heap, s.visited, s.protos, s.path ++ [keyToValue key]⟩ v s2 hn
                (by simp only [hrc, CloneRes.finalState])
            have hl2 : s2.heap.lookup nodeAddr = some obj := by
              rw [h1.2 nodeAddr hna]
              exact hl
            have hn2 : n ≤ s2.heap.next := Nat.le_trans hn h1.1
            by_cases hia : pol.ignoreAttributes = true
            · rw [if_pos hia] at hok
              cases hj : jsAssign s2.heap rvAddr key v' with
              | error e2 => simp only [hj] at hok; cases hok
              | ok h2 =>
                simp only [hj] at hok
                have h2p : heapPreserves n s2.heap h2 := heapPreserves_jsAssign hrv hj
                have hl3 : h2.lookup nodeAddr = some obj := by
                  rw [h2p.2 nodeAddr hna]
                  exact hl2
                have hn3 : n ≤ h2.next := Nat.le_trans hn2 h2p.1
                cases hes : entryStepAux rec ⟨h2, s2.visited, s2.protos, s2.path⟩
                    nodeAddr rvAddr with
                | outOfFuel => simp only [hes] at hok; cases hok
                | err e2 s3 => simp only [hes] at hok; cases hok
                | ok s3 =>
                  simp only [hes] at hok
                  have h3p := entryStepAux_frame hfr ⟨h2, s2.visited, s2.protos, s2.path⟩
                    nodeAddr rvAddr s3 hn3 hrv (by simp only [hes, StepRes.finalState])
                  have hl4 : s3.heap.lookup nodeAddr = some obj := by
                    rw [h3p.2 nodeAddr hna]
                    exact hl3
                  exact ih ⟨s3.heap, s3.visited, s3.protos, s3.path.dropLast⟩
                    nodeAddr rvAddr obj k pr w e c (Nat.le_trans hn3 h3p.1) hna hrv
                    hl4 hprop hkr s' hok
            · rw [if_neg hia] at hok
              simp only [] at hok
              have h2p : heapPreserves n s2.heap
                  (defineProp s2.heap rvAddr key (.data v' w0 e0 c0)) :=
                heapPreserves_defineProp _ _ _ _ hrv
              have hl3 : (defineProp s2.heap rvAddr key (.data v' w0 e0 c0)).lookup
                  nodeAddr = some obj := by
                rw [h2p.2 nodeAddr hna]
                exact hl2
              have hn3 : n ≤ (defineProp s2.heap rvAddr key (.data v' w0 e0 c0)).next :=
                Nat.le_trans hn2 h2p.1
              cases hes : entryStepAux rec ⟨defineProp s2.heap rvAddr key (.data v' w0 e0 c0),
                  s2.visited, s2.protos, s2.path⟩ nodeAddr rvAddr with
              | outOfFuel => simp only [hes] at hok; cases hok
              | err e2 s3 => simp only [hes] at hok; cases hok
              | ok s3 =>
                simp only [hes] at hok
                have h3p := entryStepAux_frame hfr
                  ⟨defineProp s2.heap rvAddr key (.data v' w0 e0 c0),
                    s2.visited, s2.protos, s2.path⟩
                  nodeAddr rvAddr s3 hn3 hrv (by simp only [hes, StepRes.finalState])
                have hl4 : s3.heap.lookup nodeAddr = some obj := by
                  rw [h3p.2 nodeAddr hna]
                  exact hl3
                exact ih ⟨s3.heap, s3.visited, s3.protos, s3.path.dropLast⟩
                  nodeAddr rvAddr obj k pr w e c (Nat.le_trans hn3 h3p.1) hna hrv
                  hl4 hprop hkr s' hok
      | accessor g st e0 c0 =>
        simp only [] at hok
        have hkr : k ∈ rest := by
          cases List.mem_cons.mp hk with
          | inl heq =>
            subst heq
            rw [hd0] at hprop
            cases hprop
          | inr hr => exact hr
        by_cases haa : pol.allowAccessors = true
        · rw [if_pos haa] at hok
          have h2p : heapPreserves n s.heap
              (defineProp s.heap rvAddr key (.accessor g st e0 c0)) :=
            heapPreserves_defineProp _ _ _ _ hrv
          have hl3 : (defineProp s.heap rvAddr key (.accessor g st e0 c0)).lookup
              nodeAddr = some obj := by
            rw [h2p.2 nodeAddr hna]
            exact hl
          have hn3 : n ≤ (defineProp s.heap rvAddr key (.accessor g st e0 c0)).next :=
            Nat.le_trans hn h2p.1
          cases hes : entryStepAux rec ⟨defineProp s.heap rvAddr key (.accessor g st e0 c0),
              s.visited, s.protos, s.path ++ [keyToValue key]⟩ nodeAddr rvAddr with
          | outOfFuel => simp only [hes] at hok; cases hok
          | err e2 s3 => simp only [hes] at hok; cases hok
          | ok s3 =>
            simp only [hes] at hok
            have h3p := entryStepAux_frame hfr
              ⟨defineProp s.heap rvAddr key (.accessor g st e0 c0),
                s.visited, s.protos, s.path ++ [keyToValue key]⟩
              nodeAddr rvAddr s3 hn3 hrv (by simp only [hes, StepRes.finalState])
            have hl4 : s3.heap.lookup nodeAddr = some obj := by
              rw [h3p.2 nodeAddr hna]
              exact hl3
            exact ih ⟨s3.heap, s3.visited, s3.protos, s3.path.dropLast⟩
              nodeAddr rvAddr obj k pr w e c (Nat.le_trans hn3 h3p.1) hna hrv
              hl4 hprop hkr s' hok
        · rw [if_neg haa] at hok
          cases hok

/-- A non-callable root object with a string-keyed own data property whose
value is primitive never clones successfully, with any policy. -/
theorem clone_not_ok_of_prim_prop (h : Heap) (a : Nat) (obj : JSObject)
    (ks : String) (pr : Prim) (w e c : Bool) (pol : ClonePolicy)
    (ha : a < h.next) (hobj : h.lookup a = some obj)
    (hnc : obj.callable = false)
    (hprop : getOwnProp obj.props (.str ks) = some (.data (.prim pr) w e c)) :
    ∀ v' s', clone (h.next + 1) h (.ref a) pol ≠ .ok v' s' := by
  intro v' s' hok
  unfold clone at hok
  rw [if_neg (by simp [tcIsPrimitive])] at hok
  simp only [mainClone] at hok
  rw [if_neg (by simp [isCallableV, hobj, hnc])] at hok
  simp only [alookup] at hok
  rw [if_neg (by simp)] at hok
  simp only [hobj] at hok
  cases hp : obj.proto with
  | prim q => simp only [hp] at hok; cases hok
  | ref pa =>
    simp only [hp] at hok
    generalize hsh : (match applyFactory (getTag obj) (.ref a) obj with
      | some o => o
      | none => (⟨false, .ref pa, [], .ordinary, true⟩ : JSObject)) = shell at hok
    simp only [Heap.alloc] at hok
    have hmem : (.str ks : PropKey) ∈ enumKeys pol obj := by
      have hmem0 : (.str ks : PropKey) ∈ obj.props.map Prod.fst :=
        getOwnProp_mem_keys hprop
      unfold enumKeys
      by_cases hig : pol.ignoreSymbols = true
      · rw [if_pos hig]
        exact List.mem_filter.mpr ⟨hmem0, rfl⟩
      · rw [if_neg hig]
        exact hmem0
    have hlk : (⟨(h.next, shell) :: h.objs, h.next + 1⟩ : Heap).lookup a = some obj := by
      simp only [Heap.lookup, alookup]
      rw [if_neg (by omega)]
      exact hobj
    cases hloopr : clonePropsAux pol (mainClone pol h.next)
        ⟨⟨(h.next, shell) :: h.objs, h.next + 1⟩,
         [(a, h.next)], [pa], []⟩ a h.next (enumKeys pol obj) with
    | outOfFuel => simp only [hloopr] at hok; cases hok
    | err e2 s2 => simp only [hloopr] at hok; cases hok
    | ok s3 =>
      exact clonePropsAux_prim_key_not_ok pol
        (mainClone_frame pol h.next h.next)
        (fun s0 p0 v0 s0' => mainClone_prim_not_ok pol h.next s0 p0 v0 s0')
        (enumKeys pol obj)
        ⟨⟨(h.next, shell) :: h.objs, h.next + 1⟩, [(a, h.next)], [pa], []⟩
        a h.next obj (.str ks) pr w e c (by simp) ha (Nat.le_refl _)
        hlk hprop hmem s3 hloopr

/-! ## Objects whose own properties are all function-valued -/

/-- The policy `{allowFunctions: true}` (all other options defaulted). -/
def allowFnPolicy : ClonePolicy := { allowFunctions := true }

theorem lookup_update_self (h : Heap) (a : Nat) (o : JSObject) :
    (h.update a o).lookup a = some o := by
  simp [Heap.update, Heap.lookup, alookup]

theorem dropLast_push {α : Type} (l : List α) (x : α) :
    (l ++ [x]).dropLast = l := by
  simp

theorem getOwnProp_split_nodup (pre : List (PropKey × Descriptor))
    (k : PropKey) (d : Descriptor) (rest : List (PropKey × Descriptor))
    (hnd : ((pre ++ (k, d) :: rest).map Prod.fst).Nodup) :
    getOwnProp (pre ++ (k, d) :: rest) k = some d := by
  induction pre with
  | nil => simp [getOwnProp]
  | cons kd t ih =>
    obtain ⟨k0, d0⟩ := kd
    simp only [List.cons_append, List.map_cons, List.nodup_cons] at hnd
    have hk0 : k0 ≠ k := by
      intro heq
      exact hnd.1 (by
        subst heq
        simp)
    simp only [List.cons_append, getOwnProp, hk0, if_false]
    exact ih hnd.2

theorem not_mem_pre_of_split_nodup (pre : List (PropKey × Descriptor))
    (k : PropKey) (d : Descriptor) (rest : List (PropKey × Descriptor))
    (hnd : ((pre ++ (k, d) :: rest).map Prod.fst).Nodup) :
    k ∉ pre.map Prod.fst := by
  intro hmem
  have : ¬ ((pre ++ (k, d) :: rest).map Prod.fst).Nodup := by
    simp only [List.map_append, List.map_cons]
    intro hd2
    have := (List.nodup_append.mp hd2).2.2
    exact this hmem (by simp)
  exact this hnd

theorem setOwnProp_append (l : List (PropKey × Descriptor)) (k : PropKey)
    (d : Descriptor) (hk : k ∉ l.map Prod.fst) :
    setOwnProp l k d = l ++ [(k, d)] := by
  induction l with
  | nil => simp [setOwnProp]
  | cons kd t ih =>
    obtain ⟨k0, d0⟩ := kd
    simp only [List.map_cons, List.mem_cons, not_or] at hk
    have hk0 : k0 ≠ k := fun heq => hk.1 heq.symm
    simp only [setOwnProp, hk0, if_false, List.cons_append]
    rw [ih hk.2]

/-- Under `{allowFunctions: true}`, the own-property loop over a plain
object whose remaining properties are all function-valued data properties
copies them verbatim onto the shell (the function references are returned
unchanged by the recursive `main`), and finishes normally. -/
theorem clonePropsAux_all_functions (F0 : Nat) (a rv pa : Nat)
    (obj : JSObject) (hnd : (obj.props.map Prod.fst).Nodup)
    (hint : obj.internal = .ordinary) (hne : rv ≠ a) :
    ∀ (suf pre : List (PropKey × Descriptor)) (hcur : Heap)
      (vis : List (Nat × Nat)) (pro : List Nat) (path : List JSValue),
      obj.props = pre ++ suf →
      hcur.lookup a = some obj →
      hcur.lookup rv = some ⟨false, .ref pa, pre, .ordinary, true⟩ →
      (∀ kd ∈ suf, ∃ fb w e c fo, kd.2 = Descriptor.data (.ref fb) w e c ∧
        hcur.lookup fb = some fo ∧ fo.callable = true ∧ fb ≠ rv) →
      ∃ hfin, clonePropsAux allowFnPolicy (mainClone allowFnPolicy (F0 + 1))
          ⟨hcur, vis, pro, path⟩ a rv (suf.map Prod.fst) =
          .ok ⟨hfin, vis, pro, path⟩ ∧
        hfin.lookup rv = some ⟨false, .ref pa, pre ++ suf, .ordinary, true⟩ ∧
        hfin.lookup a = some obj := by
  intro suf
  induction suf with
  | nil =>
    intro pre hcur vis pro path hsplit hla hrv _
    refine ⟨hcur, ?_, ?_, hla⟩
    · simp [clonePropsAux]
    · simpa using hrv
  | cons kd rest ih =>
    intro pre hcur vis pro path hsplit hla hrv hfns
    obtain ⟨k, d⟩ := kd
    obtain ⟨fb, w, e, c, fo, hdeq, hfl, hfc, hfbne⟩ :=
      hfns (k, d) (List.mem_cons_self _ _)
    simp only [] at hdeq
    subst hdeq
    have hgop : getOwnProp obj.props k = some (.data (.ref fb) w e c) := by
      rw [hsplit]
      exact getOwnProp_split_nodup pre k _ rest (by rw [← hsplit]; exact hnd)
    have hknotpre : k ∉ pre.map Prod.fst :=
      not_mem_pre_of_split_nodup pre k _ rest (by rw [← hsplit]; exact hnd)
    have hnew : defineProp hcur rv k (.data (.ref fb) w e c) =
        hcur.update rv ⟨false, .ref pa, pre ++ [(k, .data (.ref fb) w e c)],
          .ordinary, true⟩ := by
      simp only [defineProp, hrv]
      rw [setOwnProp_append pre k _ hknotpre]
    have hcur2 := hcur.update rv
      (⟨false, .ref pa, pre ++ [(k, .data (.ref fb) w e c)], .ordinary, true⟩ : JSObject)
    obtain ⟨hfin, heq, hrvfin, hlafin⟩ := ih (pre ++ [(k, .data (.ref fb) w e c)])
      (hcur.update rv ⟨false, .ref pa, pre ++ [(k, .data (.ref fb) w e c)],
        .ordinary, true⟩) vis pro path
      (by rw [hsplit, List.append_assoc]; rfl)
      (by rw [lookup_update_ne _ _ _ _ hne]; exact hla)
      (lookup_update_self _ _ _)
      (by
        intro kd2 hm2
        obtain ⟨fb2, w2, e2, c2, fo2, hdeq2, hfl2, hfc2, hfbne2⟩ :=
          hfns kd2 (List.mem_cons_of_mem _ hm2)
        exact ⟨fb2, w2, e2, c2, fo2, hdeq2,
          by rw [lookup_update_ne _ _ _ _ (fun hx => hfbne2 hx.symm)]; exact hfl2,
          hfc2, hfbne2⟩)
    refine ⟨hfin, ?_, by rwa [List.append_assoc] at hrvfin, hlafin⟩
    simp only [List.map_cons, clonePropsAux, hla, hgop]
    have hrecEq : mainClone allowFnPolicy (F0 + 1)
        ⟨hcur, vis, pro, path ++ [keyToValue k]⟩ (.ref fb) =
        .ok (.ref fb) ⟨hcur, vis, pro, path ++ [keyToValue k]⟩ := by
      simp only [mainClone]
      rw [if_pos (by simp only [isCallableV, hfl]; exact hfc)]
      rfl
    simp only [hrecEq]
    rw [if_neg (show ¬(allowFnPolicy.ignoreAttributes = true) by decide)]
    simp only [hnew]
    have hentry : entryStepAux (mainClone allowFnPolicy (F0 + 1))
        ⟨hcur.update rv ⟨false, .ref pa, pre ++ [(k, .data (.ref fb) w e c)],
          .ordinary, true⟩, vis, pro, path ++ [keyToValue k]⟩ a rv = .ok
        ⟨hcur.update rv ⟨false, .ref pa, pre ++ [(k, .data (.ref fb) w e c)],
          .ordinary, true⟩, vis, pro, path ++ [keyToValue k]⟩ := by
      unfold entryStepAux
      rw [if_neg ?hcond]
      case hcond =>
        simp only [tcIsMap, tcIsSet]
        rw [lookup_update_ne _ _ _ _ hne]
        simp [hla, hint]
    simp only [hentry]
    simp only [dropLast_push]
    exact heq

/-! ## Claim theorems -/

/-- C1: each distinct source node is cloned at most once per invocation.
For `shared = {}`, `root = {x: shared, y: shared}`, the clone of `root` has
`x` and `y` pointing at one and the same new clone of `shared` (address 4,
not the source's address 1); and for `a.self = a` the clone `c` (address 2)
satisfies `c.self === c`, so the self-reference is mirrored and the call
terminates. -/
theorem clone_shared_identity_and_cycle :
    (∃ s, clone 10 hShared (.ref 2) defaultPolicy = .ok (.ref 3) s ∧
      ownDataValue s.heap 3 "x" = some (.ref 4) ∧
      ownDataValue s.heap 3 "y" = some (.ref 4) ∧
      (s.visited.map Prod.fst).Nodup) ∧
    (∃ s, clone 10 hCycle (.ref 1) defaultPolicy = .ok (.ref 2) s ∧
      ownDataValue s.heap 2 "self" = some (.ref 2)) :=
  ⟨⟨_, rfl, by decide, by decide, by decide⟩, ⟨_, rfl, by decide⟩⟩

/-- C2 (failing input): `clone(new Map([["a", 1]]))` does return a distinct
`Map` instance (fresh address 2, the source lives at 1), but its entry list
is empty — `clone(m).get("a")` is `undefined`, not `1` — because the entry
population statement is nested inside the own-property loop, and a map has
no own properties, so that loop body never runs. -/
theorem clone_map_drops_entries :
    ∃ s, clone 10 hMapA1 (.ref 1) defaultPolicy = .ok (.ref 2) s ∧
      jsMapGet hMapA1 1 (.prim (.str "a")) = some (.prim (.num 1)) ∧
      internalOf s.heap 2 = some (.mapData []) ∧
      jsMapGet s.heap 2 (.prim (.str "a")) = none ∧
      internalOf s.heap 1 = some (.mapData [(.prim (.str "a"), .prim (.num 1))]) :=
  ⟨_, rfl, by decide, by decide, by decide, by decide⟩

/-- C6 (failing input): cloning `new Boolean(false)` produces a fresh boxed
Boolean — but it wraps `true`, not `false`: the factory `new Boolean(x)`
applies `ToBoolean` to the source box object `x`, and every object converts
to `true`.  (The `Number` factory is unaffected because `ToNumber` unwraps
a boxed number via `valueOf`.) -/
theorem clone_boxed_false_wraps_true :
    ∃ s, clone 10 hBoxedFalse (.ref 1) defaultPolicy = .ok (.ref 2) s ∧
      internalOf hBoxedFalse 1 = some (.booleanData false) ∧
      internalOf s.heap 2 = some (.booleanData true) :=
  ⟨_, rfl, by decide, by decide⟩

/-- C7: for every primitive root value — including `null` and `undefined` —
`clone` fails with a `TypeError` before constructing anything: the final
state is exactly the initial one (the heap is unchanged, and the visited
table, prototype set and path are still empty).  The `typeof`-primitives
are rejected by `tc.expectNonPrimitive`; `null` slips past that check
(`typeof null === "object"`) but then `Reflect.getPrototypeOf(null)` throws
inside `main`. -/
theorem clone_primitive_root_errs (p : Prim) (h : Heap) (pol : ClonePolicy)
    (fuel : Nat) (hf : 1 ≤ fuel) :
    ∃ e, clone fuel h (.prim p) pol = .err e ⟨h, [], [], []⟩ := by
  obtain ⟨f, rfl⟩ : ∃ f, fuel = f + 1 :=
    ⟨fuel - 1, (Nat.succ_pred_eq_of_pos hf).symm⟩
  cases p <;>
    exact ⟨_, rfl⟩

/-- Witness for C7 at the concrete primitive roots `1`, `null` and
`undefined`, with one unit of fuel and the `{a: 1}` heap. -/
theorem clone_primitive_root_errs_witness :
    (∃ e, clone 1 hA1 (.prim (.num 1)) defaultPolicy = .err e ⟨hA1, [], [], []⟩) ∧
    (∃ e, clone 1 hA1 (.prim .nullV) defaultPolicy = .err e ⟨hA1, [], [], []⟩) ∧
    (∃ e, clone 1 hA1 (.prim .undef) defaultPolicy = .err e ⟨hA1, [], [], []⟩) :=
  ⟨clone_primitive_root_errs (.num 1) hA1 defaultPolicy 1 (by decide),
   clone_primitive_root_errs .nullV hA1 defaultPolicy 1 (by decide),
   clone_primitive_root_errs .undef hA1 defaultPolicy 1 (by decide)⟩

/-! ## Termination infrastructure -/

/-- A value points below the watermark `n` (primitives always do). -/
def valueBelow (n : Nat) : JSValue → Bool
  | .ref a => decide (a < n)
  | .prim _ => true

/-- All values a descriptor can hand to `main` point below `n`. -/
def descriptorBelow (n : Nat) : Descriptor → Bool
  | .data v _ _ _ => valueBelow n v
  | .accessor _ _ _ _ => true

/-- All values the entry loop can hand to `main` point below `n`. -/
def internalBelow (n : Nat) : Internal → Bool
  | .mapData es => es.all (fun kv => valueBelow n kv.2)
  | .setData vs => vs.all (valueBelow n)
  | _ => true

/-- Every reference leaving an object points below `n`. -/
def objBelow (n : Nat) (o : JSObject) : Bool :=
  valueBelow n o.proto && o.props.all (fun kd => descriptorBelow n kd.2) &&
    internalBelow n o.internal

/-- A closed heap: every stored object sits below the allocation counter and
references only addresses below it. -/
def Heap.closed (h : Heap) : Prop :=
  h.objs.all (fun ao => decide (ao.1 < h.next) && objBelow h.next ao.2) = true

theorem alookup_mem {α : Type} {l : List (Nat × α)} {a : Nat} {x : α}
    (hl : alookup l a = some x) : (a, x) ∈ l := by
  induction l with
  | nil => simp [alookup] at hl
  | cons kv t ih =>
    obtain ⟨k, v⟩ := kv
    simp only [alookup] at hl
    by_cases hk : k = a
    · simp only [hk, if_true] at hl
      cases hl
      subst hk
      exact List.mem_cons_self _ _
    · simp only [hk, if_false] at hl
      exact List.mem_cons_of_mem _ (ih hl)

theorem alookup_none_not_mem {α : Type} {l : List (Nat × α)} {a : Nat}
    (hl : alookup l a = none) : a ∉ l.map Prod.fst := by
  induction l with
  | nil => simp
  | cons kv t ih =>
    obtain ⟨k, v⟩ := kv
    simp only [alookup] at hl
    by_cases hk : k = a
    · simp [hk] at hl
    · simp only [hk, if_false] at hl
      simp only [List.map_cons, List.mem_cons]
      rintro (h | h)
      · exact hk h.symm
      · exact ih hl h

theorem Heap.closed_lookup {h : Heap} {a : Nat} {o : JSObject}
    (hc : h.closed) (hl : h.lookup a = some o) :
    a < h.next ∧ objBelow h.next o = true := by
  have hmem : (a, o) ∈ h.objs := alookup_mem hl
  have := (List.all_eq_true.mp hc) (a, o) hmem
  simp only [Bool.and_eq_true, decide_eq_true_eq] at this
  exact this

theorem getOwnProp_below {n : Nat} {props : List (PropKey × Descriptor)}
    {key : PropKey} {d : Descriptor}
    (hall : props.all (fun kd => descriptorBelow n kd.2) = true)
    (hd : getOwnProp props key = some d) : descriptorBelow n d = true := by
  induction props with
  | nil => simp [getOwnProp] at hd
  | cons kd t ih =>
    obtain ⟨k, d0⟩ := kd
    simp only [getOwnProp] at hd
    simp only [List.all_cons, Bool.and_eq_true] at hall
    by_cases hk : k = key
    · simp only [hk, if_true] at hd
      cases hd
      exact hall.1
    · simp only [hk, if_false] at hd
      exact ih hall.2 hd

theorem nodup_lt_length_le {l : List Nat} {n : Nat} (hnd : l.Nodup)
    (hlt : ∀ x ∈ l, x < n) : l.length ≤ n := by
  have h1 : l.toFinset.card = l.length := List.toFinset_card_of_nodup hnd
  have h2 : l.toFinset ⊆ Finset.range n := by
    intro x hx
    exact Finset.mem_range.mpr (hlt x (List.mem_toFinset.mp hx))
  have := Finset.card_le_card h2
  rw [h1, Finset.card_range] at this
  exact this

/-- The run invariant of a `main` stage over base heap `h0`: the heap is an
extension of `h0` that agrees with it below `h0.next`, and the visited table
holds distinct source addresses, all below `h0.next`. -/
structure CloneInv (h0 : Heap) (s : CloneState) : Prop where
  pres : heapPreserves h0.next h0 s.heap
  nodupVis : (s.visited.map Prod.fst).Nodup
  visBelow : ∀ p ∈ s.visited, p.1 < h0.next

/-- `rec` (a `main` stage with `fuel` levels left) returns or throws — never
exhausts the model's fuel — whenever the fuel plus the number of
already-visited nodes exceeds the number of source addresses, and on normal
returns it preserves the invariant and only grows the visited table. -/
def RecTotal (h0 : Heap) (fuel : Nat) (rec : CloneState → JSValue → CloneRes) : Prop :=
  ∀ s node, CloneInv h0 s → valueBelow h0.next node = true →
    h0.next + 1 ≤ fuel + s.visited.length →
    rec s node ≠ .outOfFuel ∧
    ∀ v s', rec s node = .ok v s' → CloneInv h0 s' ∧ s.visited <:+ s'.visited

theorem cloneEntriesAux_total {h0 : Heap} {fuel : Nat}
    {rec : CloneState → JSValue → CloneRes} (hrec : RecTotal h0 fuel rec)
    (entries : List (JSValue × JSValue)) :
    ∀ (s : CloneState) (rvAddr : Nat), CloneInv h0 s → h0.next ≤ rvAddr →
      (∀ kv ∈ entries, valueBelow h0.next kv.2 = true) →
      h0.next + 1 ≤ fuel + s.visited.length →
      cloneEntriesAux rec s rvAddr entries ≠ .outOfFuel ∧
      ∀ s', cloneEntriesAux rec s rvAddr entries = .ok s' →
        CloneInv h0 s' ∧ s.visited <:+ s'.visited := by
  induction entries with
  | nil =>
    intro s rvAddr inv _ _ _
    refine ⟨by simp [cloneEntriesAux], ?_⟩
    intro s' hok
    simp only [cloneEntriesAux] at hok
    cases hok
    exact ⟨inv, List.suffix_refl _⟩
  | cons kv rest ih =>
    intro s rvAddr inv hrv hbel hfc
    obtain ⟨k, v⟩ := kv
    have invP : CloneInv h0 ⟨s.heap, s.visited, s.protos, s.path ++ [k]⟩ :=
      ⟨inv.pres, inv.nodupVis, inv.visBelow⟩
    have hvb : valueBelow h0.next v = true := hbel (k, v) (List.mem_cons_self _ _)
    have hmain := hrec ⟨s.heap, s.visited, s.protos, s.path ++ [k]⟩ v invP hvb hfc
    constructor
    · intro hoof
      simp only [cloneEntriesAux] at hoof
      cases hr : rec ⟨s.heap, s.visited, s.protos, s.path ++ [k]⟩ v with
      | outOfFuel => exact hmain.1 hr
      | err e s2 => simp only [hr] at hoof; cases hoof
      | ok v' s2 =>
        simp only [hr] at hoof
        obtain ⟨inv2, sfx2⟩ := hmain.2 v' s2 hr
        cases hl : s2.heap.lookup rvAddr with
        | none => simp only [hl] at hoof; cases hoof
        | some rvObj =>
          simp only [hl] at hoof
          cases hint : rvObj.internal with
          | mapData es =>
            simp only [hint] at hoof
            have invQ : CloneInv h0 ⟨s2.heap.update rvAddr
                { rvObj with internal := .mapData (mapSet es k v') },
                s2.visited, s2.protos, s2.path.dropLast⟩ :=
              ⟨heapPreserves_trans inv2.pres (heapPreserves_update _ _ _ hrv),
                inv2.nodupVis, inv2.visBelow⟩
            have hfc2 : h0.next + 1 ≤ fuel + s2.visited.length :=
              Nat.le_trans hfc (Nat.add_le_add_left sfx2.length_le fuel)
            exact (ih _ rvAddr invQ hrv
              (fun kv hm => hbel kv (List.mem_cons_of_mem _ hm)) hfc2).1 hoof
          | ordinary => simp [hint] at hoof
          | array => simp [hint] at hoof
          | booleanData b => simp [hint] at hoof
          | numberData m => simp [hint] at hoof
          | dateValue t => simp [hint] at hoof
          | regexp s0 f0 => simp [hint] at hoof
          | setData es => simp [hint] at hoof
          | errorData => simp [hint] at hoof
          | weakMapData => simp [hint] at hoof
          | weakSetData => simp [hint] at hoof
    · intro s' hok
      simp only [cloneEntriesAux] at hok
      cases hr : rec ⟨s.heap, s.visited, s.protos, s.path ++ [k]⟩ v with
      | outOfFuel => simp only [hr] at hok; cases hok
      | err e s2 => simp only [hr] at hok; cases hok
      | ok v' s2 =>
        simp only [hr] at hok
        obtain ⟨inv2, sfx2⟩ := hmain.2 v' s2 hr
        cases hl : s2.heap.lookup rvAddr with
        | none => simp only [hl] at hok; cases hok
        | some rvObj =>
          simp only [hl] at hok
          cases hint : rvObj.internal with
          | mapData es =>
            simp only [hint] at hok
            have invQ : CloneInv h0 ⟨s2.heap.update rvAddr
                { rvObj with internal := .mapData (mapSet es k v') },
                s2.visited, s2.protos, s2.path.dropLast⟩ :=
              ⟨heapPreserves_trans inv2.pres (heapPreserves_update _ _ _ hrv),
                inv2.nodupVis, inv2.visBelow⟩
            have hfc2 : h0.next + 1 ≤ fuel + s2.visited.length :=
              Nat.le_trans hfc (Nat.add_le_add_left sfx2.length_le fuel)
            obtain ⟨inv', sfx'⟩ := (ih _ rvAddr invQ hrv
              (fun kv hm => hbel kv (List.mem_cons_of_mem _ hm)) hfc2).2 s' hok
            exact ⟨inv', sfx2.trans sfx'⟩
          | ordinary => simp [hint] at hok
          | array => simp [hint] at hok
          | booleanData b => simp [hint] at hok
          | numberData m => simp [hint] at hok
          | dateValue t => simp [hint] at hok
          | regexp s0 f0 => simp [hint] at hok
          | setData es => simp [hint] at hok
          | errorData => simp [hint] at hok
          | weakMapData => simp [hint] at hok
          | weakSetData => simp [hint] at hok

theorem entryStepAux_total {h0 : Heap} {fuel : Nat}
    {rec : CloneState → JSValue → CloneRes} (hc : h0.closed)
    (hrec : RecTotal h0 fuel rec)
    (s : CloneState) (nodeAddr rvAddr : Nat) (inv : CloneInv h0 s)
    (hna : nodeAddr < h0.next) (hrv : h0.next ≤ rvAddr)
    (hfc : h0.next + 1 ≤ fuel + s.visited.length) :
    entryStepAux rec s nodeAddr rvAddr ≠ .outOfFuel ∧
    ∀ s', entryStepAux rec s nodeAddr rvAddr = .ok s' →
      CloneInv h0 s' ∧ s.visited <:+ s'.visited := by
  have hnext : h0.next ≤ s.heap.next := inv.pres.1
  unfold entryStepAux
  cases hl : s.heap.lookup nodeAddr with
  | none =>
    constructor
    · intro hoof
      split at hoof
      · simp at hoof
      · simp at hoof
    · intro s' hok
      split at hok
      · simp only [] at hok
        cases hok
        exact ⟨inv, List.suffix_refl _⟩
      · cases hok
        exact ⟨inv, List.suffix_refl _⟩
  | some o =>
    have hsame : h0.lookup nodeAddr = some o := by
      have := inv.pres.2 nodeAddr hna
      rw [← this]
      exact hl
    have hob : objBelow h0.next o = true := (Heap.closed_lookup hc hsame).2
    have hib : internalBelow h0.next o.internal = true := by
      have := hob
      simp only [objBelow, Bool.and_eq_true] at this
      exact this.2
    constructor
    · intro hoof
      split at hoof
      · cases hint : o.internal with
        | mapData es =>
          simp only [hint] at hoof
          have hbel : ∀ kv ∈ es, valueBelow h0.next kv.2 = true := by
            rw [hint] at hib
            simp only [internalBelow, List.all_eq_true] at hib
            exact hib
          exact (cloneEntriesAux_total hrec es s rvAddr inv hrv hbel hfc).1 hoof
        | setData vs =>
          simp only [hint] at hoof
          have hbel : ∀ kv ∈ vs.map (fun v => (v, v)),
              valueBelow h0.next kv.2 = true := by
            rw [hint] at hib
            simp only [internalBelow, List.all_eq_true] at hib
            intro kv hm
            obtain ⟨v0, hv0, rfl⟩ := List.mem_map.mp hm
            exact hib v0 hv0
          exact (cloneEntriesAux_total hrec _ s rvAddr inv hrv hbel hfc).1 hoof
        | ordinary => simp [hint] at hoof
        | array => simp [hint] at hoof
        | booleanData b => simp [hint] at hoof
        | numberData m => simp [hint] at hoof
        | dateValue t => simp [hint] at hoof
        | regexp s0 f0 => simp [hint] at hoof
        | errorData => simp [hint] at hoof
        | weakMapData => simp [hint] at hoof
        | weakSetData => simp [hint] at hoof
      · simp at hoof
    · intro s' hok
      split at hok
      · cases hint : o.internal with
        | mapData es =>
          simp only [hint] at hok
          have hbel : ∀ kv ∈ es, valueBelow h0.next kv.2 = true := by
            rw [hint] at hib
            simp only [internalBelow, List.all_eq_true] at hib
            exact hib
          exact (cloneEntriesAux_total hrec es s rvAddr inv hrv hbel hfc).2 s' hok
        | setData vs =>
          simp only [hint] at hok
          have hbel : ∀ kv ∈ vs.map (fun v => (v, v)),
              valueBelow h0.next kv.2 = true := by
            rw [hint] at hib
            simp only [internalBelow, List.all_eq_true] at hib
            intro kv hm
            obtain ⟨v0, hv0, rfl⟩ := List.mem_map.mp hm
            exact hib v0 hv0
          exact (cloneEntriesAux_total hrec _ s rvAddr inv hrv hbel hfc).2 s' hok
        | ordinary => simp only [hint] at hok; cases hok; exact ⟨inv, List.suffix_refl _⟩
        | array => simp only [hint] at hok; cases hok; exact ⟨inv, List.suffix_refl _⟩
        | booleanData b => simp only [hint] at hok; cases hok; exact ⟨inv, List.suffix_refl _⟩
        | numberData m => simp only [hint] at hok; cases hok; exact ⟨inv, List.suffix_refl _⟩
        | dateValue t => simp only [hint] at hok; cases hok; exact ⟨inv, List.suffix_refl _⟩
        | regexp s0 f0 => simp only [hint] at hok; cases hok; exact ⟨inv, List.suffix_refl _⟩
        | errorData => simp only [hint] at hok; cases hok; exact ⟨inv, List.suffix_refl _⟩
        | weakMapData => simp only [hint] at hok; cases hok; exact ⟨inv, List.suffix_refl _⟩
        | weakSetData => simp only [hint] at hok; cases hok; exact ⟨inv, List.suffix_refl _⟩
      · cases hok
        exact ⟨inv, List.suffix_refl _⟩

theorem clonePropsAux_total {h0 : Heap} (pol : ClonePolicy) {fuel : Nat}
    {rec : CloneState → JSValue → CloneRes} (hc : h0.closed)
    (hrec : RecTotal h0 fuel rec) (keys : List PropKey) :
    ∀ (s : CloneState) (nodeAddr rvAddr : Nat), CloneInv h0 s →
      nodeAddr < h0.next → h0.next ≤ rvAddr →
      h0.next + 1 ≤ fuel + s.visited.length →
      clonePropsAux pol rec s nodeAddr rvAddr keys ≠ .outOfFuel ∧
      ∀ s', clonePropsAux pol rec s nodeAddr rvAddr keys = .ok s' →
        CloneInv h0 s' ∧ s.visited <:+ s'.visited := by
  induction keys with
  | nil =>
    intro s nodeAddr rvAddr inv _ _ _
    constructor
    · intro hoof
      simp only [clonePropsAux] at hoof
      cases hoof
    · intro s' hok
      simp only [clonePropsAux] at hok
      cases hok
      exact ⟨inv, List.suffix_refl _⟩
  | cons key rest ih =>
    intro s nodeAddr rvAddr inv hna hrv hfc
    have hnext : h0.next ≤ s.heap.next := inv.pres.1
    have invP : CloneInv h0 ⟨s.heap, s.visited, s.protos, s.path ++ [keyToValue key]⟩ :=
      ⟨inv.pres, inv.nodupVis, inv.visBelow⟩
    have main : ∀ r, clonePropsAux pol rec s nodeAddr rvAddr (key :: rest) = r →
        r ≠ .outOfFuel ∧ ∀ s', r = .ok s' → CloneInv h0 s' ∧ s.visited <:+ s'.visited := by
      intro r hr0
      simp only [clonePropsAux] at hr0
      cases hl : s.heap.lookup nodeAddr with
      | none =>
        simp only [hl] at hr0
        subst hr0
        exact ih ⟨s.heap, s.visited, s.protos, s.path ++ [keyToValue key]⟩
          nodeAddr rvAddr invP hna hrv hfc
      | some nodeObj =>
        simp only [hl] at hr0
        have hsame : h0.lookup nodeAddr = some nodeObj := by
          rw [← inv.pres.2 nodeAddr hna]; exact hl
        have hob := (Heap.closed_lookup hc hsame).2
        simp only [objBelow, Bool.and_eq_true] at hob
        cases hd : getOwnProp nodeObj.props key with
        | none =>
          simp only [hd] at hr0
          subst hr0
          exact ih ⟨s.heap, s.visited, s.protos, s.path ++ [keyToValue key]⟩
            nodeAddr rvAddr invP hna hrv hfc
        | some d =>
          simp only [hd] at hr0
          cases d with
          | data v w e c =>
            simp only [] at hr0
            have hvb : valueBelow h0.next v = true := by
              have := getOwnProp_below hob.1.2 hd
              simpa [descriptorBelow] using this
            have hmain := hrec ⟨s.heap, s.visited, s.protos, s.path ++ [keyToValue key]⟩
              v invP hvb hfc
            cases hrc : rec ⟨s.heap, s.visited, s.protos, s.path ++ [keyToValue key]⟩ v with
            | outOfFuel => exact absurd hrc hmain.1
            | err e' s2 =>
              simp only [hrc] at hr0
              subst hr0
              exact ⟨by simp, fun s' hok => by cases hok⟩
            | ok v' s2 =>
              simp only [hrc] at hr0
              obtain ⟨inv2, sfx2⟩ := hmain.2 v' s2 hrc
              have hfc2 : h0.next + 1 ≤ fuel + s2.visited.length :=
                Nat.le_trans hfc (Nat.add_le_add_left sfx2.length_le fuel)
              have after : ∀ (h2 : Heap),
                  CloneInv h0 ⟨h2, s2.visited, s2.protos, s2.path⟩ →
                  (match entryStepAux rec ⟨h2, s2.visited, s2.protos, s2.path⟩
                      nodeAddr rvAddr with
                   | .err e' s3 => StepRes.err e' s3
                   | .outOfFuel => StepRes.outOfFuel
                   | .ok s3 => clonePropsAux pol rec
                      ⟨s3.heap, s3.visited, s3.protos, s3.path.dropLast⟩
                      nodeAddr rvAddr rest) = r →
                  r ≠ .outOfFuel ∧ ∀ s', r = .ok s' →
                    CloneInv h0 s' ∧ s.visited <:+ s'.visited := by
                intro h2 invA hr1
                have hstep := entryStepAux_total hc hrec
                  ⟨h2, s2.visited, s2.protos, s2.path⟩ nodeAddr rvAddr invA hna hrv hfc2
                cases hes : entryStepAux rec ⟨h2, s2.visited, s2.protos, s2.path⟩
                    nodeAddr rvAddr with
                | outOfFuel => exact absurd hes hstep.1
                | err e2 s3 =>
                  simp only [hes] at hr1
                  subst hr1
                  exact ⟨by simp, fun s' hok => by cases hok⟩
                | ok s3 =>
                  simp only [hes] at hr1
                  obtain ⟨inv3, sfx3⟩ := hstep.2 s3 hes
                  have hfc3 : h0.next + 1 ≤ fuel + s3.visited.length :=
                    Nat.le_trans hfc2 (Nat.add_le_add_left sfx3.length_le fuel)
                  have ihres := ih ⟨s3.heap, s3.visited, s3.protos, s3.path.dropLast⟩
                    nodeAddr rvAddr ⟨inv3.pres, inv3.nodupVis, inv3.visBelow⟩ hna hrv hfc3
                  subst hr1
                  refine ⟨ihres.1, fun s' hok => ?_⟩
                  obtain ⟨inv', sfx'⟩ := ihres.2 s' hok
                  exact ⟨inv', sfx2.trans (sfx3.trans sfx')⟩
              by_cases hia : pol.ignoreAttributes = true
              · rw [if_pos hia] at hr0
                cases hj : jsAssign s2.heap rvAddr key v' with
                | error e2 =>
                  simp only [hj] at hr0
                  subst hr0
                  exact ⟨by simp, fun s' hok => by cases hok⟩
                | ok h2 =>
                  simp only [hj] at hr0
                  exact after h2 ⟨heapPreserves_trans inv2.pres
                    (heapPreserves_jsAssign hrv hj), inv2.nodupVis, inv2.visBelow⟩ hr0
              · rw [if_neg hia] at hr0
                exact after (defineProp s2.heap rvAddr key (.data v' w e c))
                  ⟨heapPreserves_trans inv2.pres
                    (heapPreserves_defineProp _ _ _ _ hrv),
                    inv2.nodupVis, inv2.visBelow⟩ hr0
          | accessor g st e c =>
            simp only [] at hr0
            by_cases haa : pol.allowAccessors = true
            · rw [if_pos haa] at hr0
              have invA : CloneInv h0
                  ⟨defineProp s.heap rvAddr key (.accessor g st e c),
                    s.visited, s.protos, s.path ++ [keyToValue key]⟩ :=
                ⟨heapPreserves_trans inv.pres (heapPreserves_defineProp _ _ _ _ hrv),
                  inv.nodupVis, inv.visBelow⟩
              have hstep := entryStepAux_total hc hrec
                ⟨defineProp s.heap rvAddr key (.accessor g st e c),
                  s.visited, s.protos, s.path ++ [keyToValue key]⟩
                nodeAddr rvAddr invA hna hrv hfc
              cases hes : entryStepAux rec
                  ⟨defineProp s.heap rvAddr key (.accessor g st e c),
                    s.visited, s.protos, s.path ++ [keyToValue key]⟩ nodeAddr rvAddr with
              | outOfFuel => exact absurd hes hstep.1
              | err e2 s3 =>
                simp only [hes] at hr0
                subst hr0
                exact ⟨by simp, fun s' hok => by cases hok⟩
              | ok s3 =>
                simp only [hes] at hr0
                obtain ⟨inv3, sfx3⟩ := hstep.2 s3 hes
                have hfc3 : h0.next + 1 ≤ fuel + s3.visited.length :=
                  Nat.le_trans hfc (Nat.add_le_add_left sfx3.length_le fuel)
                have ihres := ih ⟨s3.heap, s3.visited, s3.protos, s3.path.dropLast⟩
                  nodeAddr rvAddr ⟨inv3.pres, inv3.nodupVis, inv3.visBelow⟩ hna hrv hfc3
                subst hr0
                refine ⟨ihres.1, fun s' hok => ?_⟩
                obtain ⟨inv', sfx'⟩ := ihres.2 s' hok
                exact ⟨inv', sfx3.trans sfx'⟩
            · rw [if_neg haa] at hr0
              subst hr0
              exact ⟨by simp, fun s' hok => by cases hok⟩
    exact main _ rfl

theorem mainClone_total (pol : ClonePolicy) (h0 : Heap) (hc : h0.closed) :
    ∀ fuel, RecTotal h0 fuel (mainClone pol fuel) := by
  intro fuel
  induction fuel with
  | zero =>
    intro s node inv _ hfc
    exfalso
    have hlen : (s.visited.map Prod.fst).length ≤ h0.next :=
      nodup_lt_length_le inv.nodupVis (by
        intro x hx
        obtain ⟨p, hp, rfl⟩ := List.mem_map.mp hx
        exact inv.visBelow p hp)
    rw [List.length_map] at hlen
    omega
  | succ fuel ih =>
    intro s node inv hvb hfc
    have hnext : h0.next ≤ s.heap.next := inv.pres.1
    have main : ∀ r, mainClone pol (fuel + 1) s node = r →
        r ≠ .outOfFuel ∧ ∀ v' s', r = .ok v' s' →
          CloneInv h0 s' ∧ s.visited <:+ s'.visited := by
      intro r hr0
      simp only [mainClone] at hr0
      by_cases hcall : isCallableV s.heap node = true
      · rw [if_pos hcall] at hr0
        by_cases haf : pol.allowFunctions = true
        · rw [if_pos haf] at hr0
          subst hr0
          exact ⟨by simp, fun v' s' hok => by
            cases hok; exact ⟨inv, List.suffix_refl _⟩⟩
        · rw [if_neg haf] at hr0
          subst hr0
          exact ⟨by simp, fun v' s' hok => by cases hok⟩
      · rw [if_neg hcall] at hr0
        cases node with
        | prim p =>
          subst hr0
          exact ⟨by simp, fun v' s' hok => by cases hok⟩
        | ref a =>
          have ha : a < h0.next := by
            simp only [valueBelow] at hvb
            exact of_decide_eq_true hvb
          cases hv : alookup s.visited a with
          | some c =>
            simp only [hv] at hr0
            subst hr0
            exact ⟨by simp, fun v' s' hok => by
              cases hok; exact ⟨inv, List.suffix_refl _⟩⟩
          | none =>
            simp only [hv] at hr0
            by_cases hmem : a ∈ s.protos
            · rw [if_pos hmem] at hr0
              subst hr0
              exact ⟨by simp, fun v' s' hok => by
                cases hok; exact ⟨inv, List.suffix_refl _⟩⟩
            · rw [if_neg hmem] at hr0
              cases hl : s.heap.lookup a with
              | none =>
                simp only [hl] at hr0
                subst hr0
                exact ⟨by simp, fun v' s' hok => by cases hok⟩
              | some obj =>
                simp only [hl] at hr0
                cases hp : obj.proto with
                | prim q =>
                  simp only [hp] at hr0
                  subst hr0
                  exact ⟨by simp, fun v' s' hok => by cases hok⟩
                | ref pa =>
                  simp only [hp] at hr0
                  generalize hsh : (match applyFactory (getTag obj) (.ref a) obj with
                    | some o => o
                    | none => (⟨false, .ref pa, [], .ordinary, true⟩ : JSObject)) = shell at hr0
                  simp only [Heap.alloc] at hr0
                  have inv2 : CloneInv h0
                      ⟨⟨(s.heap.next, shell) :: s.heap.objs, s.heap.next + 1⟩,
                       (a, s.heap.next) :: s.visited, pa :: s.protos, s.path⟩ := by
                    refine ⟨heapPreserves_trans inv.pres
                      (heapPreserves_alloc s.heap shell hnext), ?_, ?_⟩
                    · simp only [List.map_cons]
                      exact List.nodup_cons.mpr ⟨alookup_none_not_mem hv, inv.nodupVis⟩
                    · intro p hp2
                      cases hp2 with
                      | head => exact ha
                      | tail _ htl => exact inv.visBelow p htl
                  have hfc2 : h0.next + 1 ≤ fuel +
                      ((a, s.heap.next) :: s.visited).length := by
                    simp only [List.length_cons]
                    omega
                  have hloop := clonePropsAux_total pol hc ih (enumKeys pol obj)
                    ⟨⟨(s.heap.next, shell) :: s.heap.objs, s.heap.next + 1⟩,
                     (a, s.heap.next) :: s.visited, pa :: s.protos, s.path⟩
                    a s.heap.next inv2 ha hnext hfc2
                  cases hloopr : clonePropsAux pol (mainClone pol fuel)
                      ⟨⟨(s.heap.next, shell) :: s.heap.objs, s.heap.next + 1⟩,
                       (a, s.heap.next) :: s.visited, pa :: s.protos, s.path⟩
                      a s.heap.next (enumKeys pol obj) with
                  | outOfFuel => exact absurd hloopr hloop.1
                  | err e2 s2 =>
                    simp only [hloopr] at hr0
                    subst hr0
                    exact ⟨by simp, fun v' s' hok => by cases hok⟩
                  | ok s3 =>
                    simp only [hloopr] at hr0
                    obtain ⟨inv3, sfx3⟩ := hloop.2 s3 hloopr
                    have hsfx : s.visited <:+ s3.visited :=
                      (List.suffix_cons (a, s.heap.next) s.visited).trans sfx3
                    by_cases hie : pol.ignoreExtensibility = true
                    · rw [if_pos hie] at hr0
                      subst hr0
                      exact ⟨by simp, fun v' s' hok => by
                        cases hok; exact ⟨inv3, hsfx⟩⟩
                    · rw [if_neg hie] at hr0
                      cases hl2 : s3.heap.lookup a with
                      | none =>
                        simp only [hl2] at hr0
                        subst hr0
                        exact ⟨by simp, fun v' s' hok => by
                          cases hok; exact ⟨inv3, hsfx⟩⟩
                      | some o2 =>
                        simp only [hl2] at hr0
                        by_cases hext : o2.extensible = true
                        · rw [if_pos hext] at hr0
                          subst hr0
                          exact ⟨by simp, fun v' s' hok => by
                            cases hok; exact ⟨inv3, hsfx⟩⟩
                        · rw [if_neg hext] at hr0
                          subst hr0
                          refine ⟨by simp, fun v' s' hok => ?_⟩
                          cases hok
                          exact ⟨⟨heapPreserves_trans inv3.pres
                            (heapPreserves_markNonExtensible _ _ hnext),
                            inv3.nodupVis, inv3.visBelow⟩, hsfx⟩
    have := main _ rfl
    exact this

/-- C8: `clone` never mutates the source value graph.  Whether the call
returns or throws, every address allocated before the call — in particular
every node reachable from the root — still resolves to exactly the same
object afterwards: same own properties and attributes, same prototype, same
internal entries, same extensibility.  Only freshly allocated clone objects
are ever written to. -/
theorem clone_never_mutates_source (fuel : Nat) (h : Heap) (root : JSValue)
    (pol : ClonePolicy) (s' : CloneState)
    (hres : (clone fuel h root pol).finalState = some s')
    (b : Nat) (hb : b < h.next) :
    s'.heap.lookup b = h.lookup b := by
  unfold clone at hres
  split at hres
  · simp only [CloneRes.finalState] at hres
    cases hres
    rfl
  · exact (mainClone_frame pol h.next fuel ⟨h, [], [], []⟩ root s'
      (Nat.le_refl _) hres).2 b hb

/-- Witness for C8 on the cyclic graph `a.self = a`: after the clone, the
source object at address 1 is unchanged. -/
theorem clone_never_mutates_source_witness :
    ∃ s', (clone 10 hCycle (.ref 1) defaultPolicy).finalState = some s' ∧
      s'.heap.lookup 1 = hCycle.lookup 1 :=
  ⟨_, rfl, clone_never_mutates_source 10 hCycle (.ref 1) defaultPolicy _ rfl 1
    (by decide)⟩

/-- With fuel one more than the number of allocated addresses, the
interpreter never exhausts its fuel: each recursion level that goes beyond
a table hit registers a distinct, previously unvisited source node. -/
theorem clone_no_fuel_exhaustion (h : Heap) (root : JSValue) (pol : ClonePolicy)
    (hc : Heap.closed h) (hroot : valueBelow h.next root = true) :
    clone (h.next + 1) h root pol ≠ .outOfFuel := by
  unfold clone
  by_cases hprim : tcIsPrimitive root = true
  · rw [if_pos hprim]
    simp
  · rw [if_neg hprim]
    refine (mainClone_total pol h hc (h.next + 1) ⟨h, [], [], []⟩ root
      ⟨heapPreserves_refl _ _, List.nodup_nil, ?_⟩ hroot ?_).1
    · intro p hp
      cases hp
    · simp

/-- C9: `clone` terminates on every closed value graph, cyclic and
mutually-referential ones included: run with sufficient fuel (one more than
the number of allocated addresses), the invocation returns or throws —
never the model's fuel-exhaustion marker — because each node's shell is
registered in the visited-node table before its children are processed. -/
theorem clone_terminates (h : Heap) (root : JSValue) (pol : ClonePolicy)
    (hc : Heap.closed h) (hroot : valueBelow h.next root = true) :
    clone (h.next + 1) h root pol ≠ .outOfFuel :=
  clone_no_fuel_exhaustion h root pol hc hroot

/-- Witness for C9 on the cyclic graph `a.self = a`. -/
theorem clone_terminates_witness :
    clone (hCycle.next + 1) hCycle (.ref 1) defaultPolicy ≠ .outOfFuel :=
  clone_terminates hCycle (.ref 1) defaultPolicy
    (by unfold Heap.closed; decide) (by decide)

/-- C3 (counterexample): the claim quantifies over *every* root object with
a primitive-valued own data property, under *any* policy — but a function
root under `{allowFunctions: true}` is returned unchanged before any
property is visited (functions carry a primitive own `length`), and a
symbol-keyed primitive property under `{ignoreSymbols: true}` is skipped
entirely, so both calls succeed instead of throwing. -/
theorem clone_prim_prop_claim_counterexample :
    (clone 10 hFnRoot (.ref 1) { allowFunctions := true } =
      .ok (.ref 1) ⟨hFnRoot, [], [], []⟩) ∧
    (∃ s, clone 10 hSym1 (.ref 1) { ignoreSymbols := true } = .ok (.ref 2) s) :=
  ⟨rfl, ⟨_, rfl⟩⟩

/-- C3 (amended): for every *non-callable* root object with a
*string-keyed* own data property whose value is a non-function primitive,
`clone` throws a `TypeError` under any policy: the recursive step applies
`Reflect.getPrototypeOf` to the property value without first returning
primitives unchanged, so such a property is never copied successfully, and
every other way an iteration can end is itself a `TypeError` throw. -/
theorem clone_throws_on_primitive_valued_prop
    (h : Heap) (a : Nat) (obj : JSObject) (ks : String) (pr : Prim)
    (w e c : Bool) (pol : ClonePolicy)
    (hc : Heap.closed h) (ha : a < h.next)
    (hobj : h.lookup a = some obj) (hnc : obj.callable = false)
    (hprop : getOwnProp obj.props (.str ks) = some (.data (.prim pr) w e c)) :
    ∃ er s', clone (h.next + 1) h (.ref a) pol = .err er s' := by
  have hnoof := clone_no_fuel_exhaustion h (.ref a) pol hc
    (by simp only [valueBelow, decide_eq_true_eq]; exact ha)
  have hnok := clone_not_ok_of_prim_prop h a obj ks pr w e c pol ha hobj hnc hprop
  cases hres : clone (h.next + 1) h (.ref a) pol with
  | ok v' s' => exact absurd hres (hnok v' s')
  | err er s' => exact ⟨er, s', rfl⟩
  | outOfFuel => exact absurd hres hnoof

/-- Witness for the amended C3 at `{a: 1}`. -/
theorem clone_throws_on_primitive_valued_prop_witness :
    ∃ er s', clone (hA1.next + 1) hA1 (.ref 1) defaultPolicy = .err er s' :=
  clone_throws_on_primitive_valued_prop hA1 1
    ⟨false, .ref 0, [(.str "a", .data (.prim (.num 1)) true true true)],
      .ordinary, true⟩
    "a" (.num 1) true true true defaultPolicy
    (by unfold Heap.closed; decide) (by decide) rfl rfl rfl

theorem getTag_plain (o : JSObject) (hnc : o.callable = false)
    (hio : o.internal = .ordinary) : getTag o = "Object" := by
  simp [getTag, hnc, hio]

theorem applyFactory_object (v : JSValue) (o : JSObject) :
    applyFactory "Object" v o = some ⟨false, o.proto, [], .ordinary, true⟩ := rfl

/-- C4 (counterexample): the claim quantifies over *any* object with a
function-valued own property, but for `{a: 1, f: () => {}}` the key `"a"`
is processed first, so the default-policy call throws the host
`Reflect.getPrototypeOf` `TypeError` (with no attached path), not the
engine's "Cannot clone a function." error — and the
`{allowFunctions: true}` call throws identically instead of succeeding. -/
theorem clone_function_prop_claim_counterexample :
    (∃ s, clone 10 hAF (.ref 1) defaultPolicy =
      .err ⟨"Reflect.getPrototypeOf called on non-object", none⟩ s) ∧
    (∃ s, clone 10 hAF (.ref 1) { allowFunctions := true } =
      .err ⟨"Reflect.getPrototypeOf called on non-object", none⟩ s) :=
  ⟨⟨_, rfl⟩, ⟨_, rfl⟩⟩

/-- C4 (amended): for every plain extensible object all of whose own
properties are data properties holding functions (e.g. `{f: () => {}}`),
the default-policy clone throws a `TypeError` whose message states a
function cannot be cloned and whose attached path holds exactly the first
property key, while the `{allowFunctions: true}` clone succeeds and the
resulting object's properties are identical to the source's — in
particular every property value is reference-equal to the source
function. -/
theorem clone_all_function_props (h : Heap) (a pa : Nat) (obj : JSObject)
    (k0 : PropKey) (f0 : Nat) (w0 e0 c0 : Bool)
    (restProps : List (PropKey × Descriptor))
    (ha : a < h.next) (hla : h.lookup a = some obj)
    (hnc : obj.callable = false) (hio : obj.internal = .ordinary)
    (hproto : obj.proto = .ref pa) (hext : obj.extensible = true)
    (hprops : obj.props = (k0, .data (.ref f0) w0 e0 c0) :: restProps)
    (hnd : (obj.props.map Prod.fst).Nodup)
    (hfns : ∀ kd ∈ obj.props, ∃ fb w e c fo,
      kd.2 = Descriptor.data (.ref fb) w e c ∧
      h.lookup fb = some fo ∧ fo.callable = true ∧ fb < h.next)
    (fuel : Nat) (hfuel : 2 ≤ fuel) :
    (∃ s', clone fuel h (.ref a) defaultPolicy =
      .err ⟨"Cannot clone a function.", some [keyToValue k0]⟩ s') ∧
    (∃ s', clone fuel h (.ref a) allowFnPolicy = .ok (.ref h.next) s' ∧
      s'.heap.lookup h.next =
        some ⟨false, .ref pa, obj.props, .ordinary, true⟩) := by
  obtain ⟨F0, rfl⟩ : ∃ F0, fuel = F0 + 1 + 1 := ⟨fuel - 2, by omega⟩
  obtain ⟨fo0, hf0⟩ : ∃ fo0, h.lookup f0 = some fo0 ∧ fo0.callable = true ∧
      f0 < h.next := by
    obtain ⟨fb, w, e, c, fo, hdeq, hfl, hfc, hlt⟩ :=
      hfns (k0, .data (.ref f0) w0 e0 c0) (by rw [hprops]; exact List.mem_cons_self _ _)
    simp only [Descriptor.data.injEq, JSValue.ref.injEq] at hdeq
    obtain ⟨rfl, -, -, -⟩ := hdeq
    exact ⟨fo, hfl, hfc, hlt⟩
  have hAHa : (⟨(h.next, (⟨false, .ref pa, [], .ordinary, true⟩ : JSObject)) ::
      h.objs, h.next + 1⟩ : Heap).lookup a = some obj := by
    simp only [Heap.lookup, alookup]
    rw [if_neg (by omega)]
    exact hla
  have hAHf0 : (⟨(h.next, (⟨false, .ref pa, [], .ordinary, true⟩ : JSObject)) ::
      h.objs, h.next + 1⟩ : Heap).lookup f0 = some fo0 := by
    simp only [Heap.lookup, alookup]
    rw [if_neg (by omega)]
    exact hf0.1
  have hgop0 : getOwnProp obj.props k0 = some (.data (.ref f0) w0 e0 c0) := by
    rw [hprops]
    simp [getOwnProp]
  constructor
  · -- default policy: the very first key throws the function error
    refine ⟨⟨⟨(h.next, ⟨false, .ref pa, [], .ordinary, true⟩) :: h.objs,
      h.next + 1⟩, [(a, h.next)], [pa], [keyToValue k0]⟩, ?_⟩
    unfold clone
    rw [if_neg (by simp [tcIsPrimitive])]
    rw [mainClone]
    rw [if_neg (by simp [isCallableV, hla, hnc])]
    simp only [alookup]
    rw [if_neg (List.not_mem_nil a)]
    simp only [hla, hproto, getTag_plain obj hnc hio, applyFactory_object,
      Heap.alloc, hproto]
    have henum : enumKeys defaultPolicy obj = k0 :: restProps.map Prod.fst := by
      simp [enumKeys, defaultPolicy, hprops]
    rw [henum]
    simp only [clonePropsAux, hAHa, hgop0]
    rw [mainClone]
    have hcal : isCallableV ⟨(h.next, ⟨false, .ref pa, [], .ordinary, true⟩) ::
        h.objs, h.next + 1⟩ (.ref f0) = true := by
      simp only [isCallableV, hAHf0]
      exact hf0.2.1
    rw [if_pos hcal]
    rw [if_neg (show ¬(defaultPolicy.allowFunctions = true) by decide)]
    rfl
  · -- allowFunctions: the loop copies every function reference verbatim
    obtain ⟨hfin, heqLoop, hrvfin, hlafin⟩ :=
      clonePropsAux_all_functions F0 a h.next pa obj hnd hio (by omega)
        obj.props [] (⟨(h.next, ⟨false, .ref pa, [], .ordinary, true⟩) ::
          h.objs, h.next + 1⟩ : Heap)
        [(a, h.next)] [pa] [] (by simp)
        hAHa
        (by simp [Heap.lookup, alookup])
        (by
          intro kd hm
          obtain ⟨fb, w, e, c, fo, hdeq, hfl, hfc, hlt⟩ := hfns kd hm
          refine ⟨fb, w, e, c, fo, hdeq, ?_, hfc, by omega⟩
          simp only [Heap.lookup, alookup]
          rw [if_neg (by omega)]
          exact hfl)
    refine ⟨⟨hfin, [(a, h.next)], [pa], []⟩, ?_, by simpa using hrvfin⟩
    unfold clone
    rw [if_neg (by simp [tcIsPrimitive])]
    rw [mainClone]
    rw [if_neg (by simp [isCallableV, hla, hnc])]
    simp only [alookup]
    rw [if_neg (List.not_mem_nil a)]
    simp only [hla, hproto, getTag_plain obj hnc hio, applyFactory_object,
      Heap.alloc, hproto]
    have henum : enumKeys allowFnPolicy obj = obj.props.map Prod.fst := by
      simp [enumKeys, allowFnPolicy]
    rw [henum]
    simp only [heqLoop]
    rw [if_neg (show ¬(allowFnPolicy.ignoreExtensibility = true) by decide)]
    simp only [hlafin, hext]
    rfl

/-- Witness for the amended C4 at `{f: () => {}}`. -/
theorem clone_all_function_props_witness :
    (∃ s', clone 10 hFProp (.ref 1) defaultPolicy =
      .err ⟨"Cannot clone a function.", some [keyToValue (.str "f")]⟩ s') ∧
    (∃ s', clone 10 hFProp (.ref 1) allowFnPolicy = .ok (.ref hFProp.next) s' ∧
      s'.heap.lookup hFProp.next = some ⟨false, .ref 0,
        [(.str "f", .data (.ref 2) true true true)], .ordinary, true⟩) :=
  clone_all_function_props hFProp 1 0
    ⟨false, .ref 0, [(.str "f", .data (.ref 2) true true true)], .ordinary, true⟩
    (.str "f") 2 true true true [] (by decide) rfl rfl rfl rfl rfl rfl
    (by decide)
    (by
      intro kd hm
      simp only [List.mem_singleton] at hm
      subst hm
      exact ⟨2, true, true, true, ⟨true, .ref 0, [], .ordinary, true⟩,
        rfl, rfl, rfl, by decide⟩)
    10 (by decide)

/-- C5 (counterexample): `clone(/ab+c/gi)` does not round-trip — it throws:
a real regular expression instance carries the own data property
`lastIndex = 0`, and the recursive step applies `Reflect.getPrototypeOf`
to that primitive value. -/
theorem clone_regexp_claim_counterexample :
    ∃ s, clone 10 hRegexp (.ref 1) defaultPolicy =
      .err ⟨"Reflect.getPrototypeOf called on non-object", none⟩ s :=
  ⟨_, rfl⟩

/-- C5 (amended): dates round-trip — for every `Date` (no own properties,
`[[DateValue]]` internal slot) the clone is a fresh `Date` with the same
timestamp, under any policy — but regular expressions do not: every
`RegExp` (which carries the own primitive `lastIndex` data property)
makes `clone` throw a `TypeError`. -/
theorem clone_date_roundtrip_and_regexp_throws :
    (∀ (h : Heap) (a pa : Nat) (obj : JSObject) (t : Int) (pol : ClonePolicy)
      (fuel : Nat),
      h.lookup a = some obj → obj.callable = false →
      obj.internal = .dateValue t → obj.props = [] → obj.proto = .ref pa →
      a < h.next → 1 ≤ fuel →
      ∃ s', clone fuel h (.ref a) pol = .ok (.ref h.next) s' ∧
        internalOf s'.heap h.next = some (.dateValue t) ∧ h.next ≠ a) ∧
    (∀ (h : Heap) (a : Nat) (obj : JSObject) (rsrc rflags : String)
      (w e c : Bool) (pol : ClonePolicy),
      Heap.closed h → a < h.next → h.lookup a = some obj →
      obj.callable = false → obj.internal = .regexp rsrc rflags →
      getOwnProp obj.props (.str "lastIndex") =
        some (.data (.prim (.num 0)) w e c) →
      ∃ er s', clone (h.next + 1) h (.ref a) pol = .err er s') := by
  constructor
  · intro h a pa obj t pol fuel hla hnc hint hprops0 hproto ha hfuel
    obtain ⟨F0, rfl⟩ : ∃ F0, fuel = F0 + 1 := ⟨fuel - 1, by omega⟩
    have hgt : getTag obj = "Date" := by simp [getTag, hnc, hint]
    have hfac : applyFactory "Date" (.ref a) obj =
        some ⟨false, obj.proto, [],
          .dateValue (match obj.internal with | .dateValue t0 => t0 | _ => 0),
          true⟩ := rfl
    have henum : enumKeys pol obj = [] := by
      simp [enumKeys, hprops0]
    have hAHa : (⟨(h.next, (⟨false, .ref pa, [], .dateValue t, true⟩ : JSObject)) ::
        h.objs, h.next + 1⟩ : Heap).lookup a = some obj := by
      simp only [Heap.lookup, alookup]
      rw [if_neg (by omega)]
      exact hla
    have hAHrv : (⟨(h.next, (⟨false, .ref pa, [], .dateValue t, true⟩ : JSObject)) ::
        h.objs, h.next + 1⟩ : Heap).lookup h.next =
        some ⟨false, .ref pa, [], .dateValue t, true⟩ := by
      simp [Heap.lookup, alookup]
    have run : ∀ r, clone (F0 + 1) h (.ref a) pol = r →
        ∃ s', r = .ok (.ref h.next) s' ∧
          internalOf s'.heap h.next = some (.dateValue t) ∧ h.next ≠ a := by
      intro r hr0
      unfold clone at hr0
      rw [if_neg (by simp [tcIsPrimitive])] at hr0
      rw [mainClone] at hr0
      rw [if_neg (by simp [isCallableV, hla, hnc])] at hr0
      simp only [alookup] at hr0
      rw [if_neg (List.not_mem_nil a)] at hr0
      simp only [hla, hproto, hgt, hfac, hint, hproto, Heap.alloc, henum,
        clonePropsAux] at hr0
      by_cases hie : pol.ignoreExtensibility = true
      · rw [if_pos hie] at hr0
        refine ⟨_, hr0.symm, ?_, by omega⟩
        simp only [internalOf, hAHrv]
        rfl
      · rw [if_neg hie] at hr0
        simp only [hAHa] at hr0
        by_cases hext : obj.extensible = true
        · rw [if_pos hext] at hr0
          refine ⟨_, hr0.symm, ?_, by omega⟩
          simp only [internalOf, hAHrv]
          rfl
        · rw [if_neg hext] at hr0
          refine ⟨_, hr0.symm, ?_, by omega⟩
          simp [markNonExtensible, hAHrv, internalOf, Heap.update,
            Heap.lookup, alookup]
    exact run _ rfl
  · intro h a obj rsrc rflags w e c pol hc ha hla hnc hint hli
    have hnoof := clone_no_fuel_exhaustion h (.ref a) pol hc
      (by simp only [valueBelow, decide_eq_true_eq]; exact ha)
    have hnok := clone_not_ok_of_prim_prop h a obj "lastIndex" (.num 0) w e c
      pol ha hla hnc hli
    cases hres : clone (h.next + 1) h (.ref a) pol with
    | ok v' s' => exact absurd hres (hnok v' s')
    | err er s' => exact ⟨er, s', rfl⟩
    | outOfFuel => exact absurd hres hnoof

/-- Witness for the amended C5 at `new Date(1000)` and `/ab+c/gi`. -/
theorem clone_date_roundtrip_and_regexp_throws_witness :
    (∃ s', clone 10 hDate1000 (.ref 1) defaultPolicy = .ok (.ref hDate1000.next) s' ∧
      internalOf s'.heap hDate1000.next = some (.dateValue 1000) ∧
      hDate1000.next ≠ 1) ∧
    (∃ er s', clone (hRegexp.next + 1) hRegexp (.ref 1) defaultPolicy =
      .err er s') :=
  ⟨clone_date_roundtrip_and_regexp_throws.1 hDate1000 1 0
      ⟨false, .ref 0, [], .dateValue 1000, true⟩ 1000 defaultPolicy 10
      rfl rfl rfl rfl rfl (by decide) (by decide),
   clone_date_roundtrip_and_regexp_throws.2 hRegexp 1
      ⟨false, .ref 0, [(.str "lastIndex", .data (.prim (.num 0)) true false false)],
        .regexp "ab+c" "gi", true⟩
      "ab+c" "gi" true false false defaultPolicy
      (by unfold Heap.closed; decide) (by decide) rfl rfl rfl rfl⟩

/-- C10 (failing input): idempotence of re-cloning is unattainable because
`clone` does not even produce a value on `v = {a: 1}` — a non-primitive
value containing no functions and no accessor properties (first conjunct,
by computation on the heap) — it throws a `TypeError` instead (the missing
primitive base case of the recursion), so `clone(clone(v))` cannot be
formed, let alone be deeply equal to `clone(v)`. -/
theorem clone_idempotence_blocked_by_primitive_throw :
    (hA1.objs.all (fun ao => !ao.2.callable &&
      ao.2.props.all (fun kd =>
        match kd.2 with
        | .data _ _ _ _ => true
        | .accessor _ _ _ _ => false)) = true) ∧
    ∃ er s', clone 10 hA1 (.ref 1) defaultPolicy = .err er s' :=
  ⟨by decide, ⟨_, _, rfl⟩⟩

end Snowdash
